import Mathlib

/-!
Verification of the CivIQ RAG sidecar retrieval engine
(`rag-sidecar/main.py`).

Modelling conventions used throughout this development:

* Python strings are modelled as `List Char` (`Str` below); `s.lower()` is
  `List.map Char.toLower`, `a in b` (substring) is `containsSub`.
* Python floats are modelled as exact rationals `ℚ`.  Because the kernel
  cannot reduce `Rat.add`/`Rat.mul`/`Rat.div` on closed terms, the model uses
  the kernel-computable wrappers `qAdd`, `qMul`, `qSub`, `qDiv`, `qMin`,
  `qMax`, each proved equal to the corresponding field operation of `ℚ`
  (`qAdd_eq` …), so theorems may freely switch between the two views and
  concrete runs of the model evaluate by `decide`.
* Python dicts are modelled as association lists with last-binding-wins
  lookup (`lookupLast`), matching `{k: v for …}` comprehensions, and Python
  `set` iteration is modelled as first-occurrence order (`dedupFirst`); every
  theorem proved below is independent of the set-iteration order.
* `re` patterns of the source are implemented as direct character scanners
  (`timeFindall`, `numFindall`, `phoneSearch`, `capsFindall`, …) following
  Python's leftmost, non-overlapping `findall`/`search` semantics including
  the `\b` word-boundary rules of the concrete patterns.
-/

set_option maxRecDepth 40000

namespace CivIQ

/-- Python strings are modelled as lists of characters. -/
abbrev Str := List Char

/-- Shorthand to turn a Lean string literal into the model's string type. -/
def lit (s : String) : Str := s.data

-- ── Kernel-computable rational arithmetic ────────────────────────────────────

/-- Addition on `ℚ` in kernel-computable form (see `qAdd_eq`). -/
def qAdd (a b : ℚ) : ℚ := mkRat (a.num * b.den + b.num * a.den) (a.den * b.den)

/-- Multiplication on `ℚ` in kernel-computable form (see `qMul_eq`). -/
def qMul (a b : ℚ) : ℚ := mkRat (a.num * b.num) (a.den * b.den)

/-- Negation on `ℚ` in kernel-computable form (see `qNeg_eq`). -/
def qNeg (a : ℚ) : ℚ := mkRat (-a.num) a.den

/-- Subtraction on `ℚ` in kernel-computable form (see `qSub_eq`). -/
def qSub (a b : ℚ) : ℚ := qAdd a (qNeg b)

/-- Inverse on `ℚ` in kernel-computable form (see `qInv_eq`). -/
def qInv (b : ℚ) : ℚ :=
  if b.num < 0 then mkRat (-(b.den : ℤ)) (-b.num).toNat
  else mkRat (b.den : ℤ) b.num.toNat

/-- Division on `ℚ` in kernel-computable form (see `qDiv_eq`). -/
def qDiv (a b : ℚ) : ℚ := qMul a (qInv b)

/-- Binary minimum on `ℚ` in kernel-computable form (see `qMin_eq`). -/
def qMin (a b : ℚ) : ℚ := if a ≤ b then a else b

/-- Binary maximum on `ℚ` in kernel-computable form (see `qMax_eq`). -/
def qMax (a b : ℚ) : ℚ := if a ≤ b then b else a

-- ── Generic dict / set helpers ───────────────────────────────────────────────

/-- Lookup in an association list where a later binding for the same key wins,
as in a Python dict comprehension built by iteration. -/
def lookupLast {κ α : Type} [DecidableEq κ] (m : List (κ × α)) (k : κ) : Option α :=
  match m with
  | [] => none
  | (k', v) :: rest =>
    match lookupLast rest k with
    | some v' => some v'
    | none => if k' = k then some v else none

/-- First-occurrence deduplication with an accumulator of already-seen keys. -/
def dedupFirstGo {κ : Type} [DecidableEq κ] (seen : List κ) : List κ → List κ
  | [] => []
  | k :: rest =>
    if k ∈ seen then dedupFirstGo seen rest
    else k :: dedupFirstGo (k :: seen) rest

/-- Keep the first occurrence of each element, preserving order. -/
def dedupFirst {κ : Type} [DecidableEq κ] (l : List κ) : List κ := dedupFirstGo [] l

-- ── Character-level string utilities (ASCII, as the source's regexes use) ────

/-- Python regex `\w` over the corpus's ASCII text. -/
def isWordChar (c : Char) : Bool := c.isAlphanum || c == '_'

/-- Python `str.lower()`. -/
def lower (s : Str) : Str := s.map Char.toLower

/-- Python substring containment `needle in hay`. -/
def containsSub (needle : Str) : Str → Bool
  | [] => needle.isEmpty
  | c :: rest => needle.isPrefixOf (c :: rest) || containsSub needle rest

/-- Run a position predicate over every suffix of the input, as `re.search`
scans candidate start positions left to right. -/
def anySuffix (p : Str → Bool) : Str → Bool
  | [] => p []
  | c :: rest => p (c :: rest) || anySuffix p rest

/-- Word-boundary test after a just-matched character `lastc` when the rest of
the input is `rest`: `\b` holds iff exactly one side is a word character
(end of input counting as a non-word side). -/
def boundaryAfter (lastc : Char) (rest : Str) : Bool :=
  match rest with
  | [] => isWordChar lastc
  | c :: _ => isWordChar lastc != isWordChar c

def isUpper (c : Char) : Bool := 'A' ≤ c && c ≤ 'Z'

def isLower (c : Char) : Bool := 'a' ≤ c && c ≤ 'z'

-- ── TIME_PATTERN: `\b\d{1,2}:\d{2}\s*(?:a\.m\.|p\.m\.|am|pm)\b`, IGNORECASE ──

/-- The alternation `(?:a\.m\.|p\.m\.|am|pm)\b` of TIME_PATTERN, tried in
Python's alternation order, case-insensitively, with the trailing `\b`. -/
def matchAmPm (s : Str) : Option (Str × Str) :=
  match s with
  | c1 :: c2 :: c3 :: c4 :: rest =>
    if (c1.toLower == 'a' || c1.toLower == 'p') && c2 == '.' && c3.toLower == 'm'
        && c4 == '.' && boundaryAfter c4 rest then
      some ([c1, c2, c3, c4], rest)
    else if (c1.toLower == 'a' || c1.toLower == 'p') && c2.toLower == 'm'
        && boundaryAfter c2 (c3 :: c4 :: rest) then
      some ([c1, c2], c3 :: c4 :: rest)
    else none
  | c1 :: c2 :: rest =>
    if (c1.toLower == 'a' || c1.toLower == 'p') && c2.toLower == 'm'
        && boundaryAfter c2 rest then
      some ([c1, c2], rest)
    else none
  | _ => none

/-- The `:\d{2}\s*(?:…)\b` tail of TIME_PATTERN. -/
def timeTail (s : Str) : Option (Str × Str) :=
  match s with
  | ':' :: m1 :: m2 :: rest =>
    if m1.isDigit && m2.isDigit then
      let ws := rest.takeWhile Char.isWhitespace
      let rest2 := rest.dropWhile Char.isWhitespace
      match matchAmPm rest2 with
      | some (ap, rest3) => some (':' :: m1 :: m2 :: (ws ++ ap), rest3)
      | none => none
    else none
  | _ => none

/-- Attempt TIME_PATTERN at the current position (the caller has already
checked the leading `\b` and that the head is a digit). `\d{1,2}` is greedy;
no further backtracking is possible because a digit can never match `:`. -/
def timeMatchAt (s : Str) : Option (Str × Str) :=
  match s with
  | d1 :: d2 :: rest =>
    if d1.isDigit then
      if d2.isDigit then
        match timeTail rest with
        | some (t, r) => some (d1 :: d2 :: t, r)
        | none => none
      else
        match timeTail (d2 :: rest) with
        | some (t, r) => some (d1 :: t, r)
        | none => none
    else none
  | _ => none

/-- Left-to-right non-overlapping scan for TIME_PATTERN (`re.findall`).
`prev` is the character before the current position, for the leading `\b`. -/
def timeScanGo : Nat → Option Char → Str → List Str
  | 0, _, _ => []
  | _ + 1, _, [] => []
  | fuel + 1, prev, c :: rest =>
    let bOk := match prev with
      | none => true
      | some p => !isWordChar p
    if c.isDigit && bOk then
      match timeMatchAt (c :: rest) with
      | some (m, r) => m :: timeScanGo fuel m.getLast? r
      | none => timeScanGo fuel (some c) rest
    else timeScanGo fuel (some c) rest

/-- `TIME_PATTERN.findall(s)`. -/
def timeFindall (s : Str) : List Str := timeScanGo s.length none s

/-- `bool(TIME_PATTERN.search(s))`. -/
def timeSearch (s : Str) : Bool := !(timeFindall s).isEmpty

-- ── NUM_PATTERN: `\b\d+\b` ───────────────────────────────────────────────────

/-- `NUM_PATTERN.findall(s)`: maximal digit runs flanked by non-word
characters (or the ends of the input). -/
def numScanGo : Nat → Option Char → Str → List Str
  | 0, _, _ => []
  | _ + 1, _, [] => []
  | fuel + 1, prev, c :: rest =>
    let bOk := match prev with
      | none => true
      | some p => !isWordChar p
    if c.isDigit && bOk then
      let run := (c :: rest).takeWhile Char.isDigit
      let rest2 := (c :: rest).dropWhile Char.isDigit
      let ok := match rest2 with
        | [] => true
        | c2 :: _ => !isWordChar c2
      if ok then run :: numScanGo fuel run.getLast? rest2
      else numScanGo fuel run.getLast? rest2
    else numScanGo fuel (some c) rest

def numFindall (s : Str) : List Str := numScanGo s.length none s

-- ── Whole-word search `\b<word>\b` for a needle made of word characters ──────

def wordOccursGo : Nat → Option Char → Str → Str → Bool
  | 0, _, _, _ => false
  | _ + 1, _, _, [] => false
  | fuel + 1, prev, w, c :: rest =>
    let bOk := match prev with
      | none => true
      | some p => !isWordChar p
    (bOk && w.isPrefixOf (c :: rest) &&
      (match (c :: rest).drop w.length with
       | [] => true
       | a :: _ => !isWordChar a))
    || wordOccursGo fuel (some c) w rest

/-- `bool(re.search(r'\b' + w + r'\b', hay))` for a needle `w` consisting of
word characters. -/
def wordOccurs (w : Str) (hay : Str) : Bool := wordOccursGo hay.length none w hay

-- ── PHONE_PATTERN: `\(\d{3}\)\s*\d{3}[-\s]\d{4}` (score adjustment) ──────────

def phoneMatchAt (s : Str) : Bool :=
  match s with
  | '(' :: d1 :: d2 :: d3 :: ')' :: rest =>
    if d1.isDigit && d2.isDigit && d3.isDigit then
      match rest.dropWhile Char.isWhitespace with
      | e1 :: e2 :: e3 :: sep :: f1 :: f2 :: f3 :: f4 :: _ =>
        e1.isDigit && e2.isDigit && e3.isDigit && (sep == '-' || sep.isWhitespace)
          && f1.isDigit && f2.isDigit && f3.isDigit && f4.isDigit
      | _ => false
    else false
  | _ => false

/-- `bool(PHONE_PATTERN.search(s))`. -/
def phoneSearch (s : Str) : Bool := anySuffix phoneMatchAt s

-- ── Keyword-rescue phone pattern: `\(\d{3}\)\s*\d{3}[- ]?\d{4}` (findall) ────

def fourDigits : Str → Option (Str × Str)
  | f1 :: f2 :: f3 :: f4 :: r =>
    if f1.isDigit && f2.isDigit && f3.isDigit && f4.isDigit then
      some ([f1, f2, f3, f4], r)
    else none
  | _ => none

def phoneRescueAt (s : Str) : Option (Str × Str) :=
  match s with
  | '(' :: d1 :: d2 :: d3 :: ')' :: rest =>
    if d1.isDigit && d2.isDigit && d3.isDigit then
      let ws := rest.takeWhile Char.isWhitespace
      let rest2 := rest.dropWhile Char.isWhitespace
      match rest2 with
      | e1 :: e2 :: e3 :: rest3 =>
        if e1.isDigit && e2.isDigit && e3.isDigit then
          match rest3 with
          | sep :: tail =>
            if sep == '-' || sep == ' ' then
              match fourDigits tail with
              | some (fd, r) =>
                some ('(' :: d1 :: d2 :: d3 :: ')' :: (ws ++ [e1, e2, e3, sep] ++ fd), r)
              | none => none
            else
              match fourDigits rest3 with
              | some (fd, r) =>
                some ('(' :: d1 :: d2 :: d3 :: ')' :: (ws ++ [e1, e2, e3] ++ fd), r)
              | none => none
          | [] => none
        else none
      | _ => none
    else none
  | _ => none

def phoneRescueGo : Nat → Str → List Str
  | 0, _ => []
  | _ + 1, [] => []
  | fuel + 1, c :: rest =>
    match phoneRescueAt (c :: rest) with
    | some (m, r) => m :: phoneRescueGo fuel r
    | none => phoneRescueGo fuel rest

/-- `re.findall(r'\(\d{3}\)\s*\d{3}[- ]?\d{4}', s)`. -/
def phoneRescueFindall (s : Str) : List Str := phoneRescueGo s.length s

-- ── All-caps identifiers: `\b[A-Z]{2,}(?:\s+[A-Z][a-z]+)*\b` ─────────────────

/-- Greedily collect `(?:\s+[A-Z][a-z]+)` groups, returning the group texts
and the remaining input. -/
def capsGroupsGo : Nat → Str → List Str × Str
  | 0, s => ([], s)
  | fuel + 1, s =>
    let ws := s.takeWhile Char.isWhitespace
    let rest := s.dropWhile Char.isWhitespace
    if ws.isEmpty then ([], s)
    else
      match rest with
      | u :: t =>
        if isUpper u then
          let low := t.takeWhile isLower
          let t2 := t.dropWhile isLower
          if low.isEmpty then ([], s)
          else
            let (gs, r) := capsGroupsGo fuel t2
            ((ws ++ u :: low) :: gs, r)
        else ([], s)
      | [] => ([], s)

/-- Backtrack over the greedy group list: try the longest extension first and
drop trailing groups until the final `\b` holds, as Python's engine does. -/
def capsTryGroups : Str → List Str → Str → Option (Str × Str)
  | caps, [], r =>
    if boundaryAfter (caps.getLastD '_') r then some (caps, r) else none
  | caps, g :: gs, r =>
    match capsTryGroups (caps ++ g) gs r with
    | some res => some res
    | none =>
      let rfull := g ++ (List.foldr (fun a b => a ++ b) [] gs) ++ r
      if boundaryAfter (caps.getLastD '_') rfull then some (caps, rfull) else none

def capsMatchAt (s : Str) : Option (Str × Str) :=
  let caps := s.takeWhile isUpper
  let rest := s.dropWhile isUpper
  if caps.length < 2 then none
  else
    let (gs, r) := capsGroupsGo rest.length rest
    capsTryGroups caps gs r

def capsScanGo : Nat → Option Char → Str → List Str
  | 0, _, _ => []
  | _ + 1, _, [] => []
  | fuel + 1, prev, c :: rest =>
    let bOk := match prev with
      | none => true
      | some p => !isWordChar p
    if isUpper c && bOk then
      match capsMatchAt (c :: rest) with
      | some (m, r) => m :: capsScanGo fuel m.getLast? r
      | none => capsScanGo fuel (some c) rest
    else capsScanGo fuel (some c) rest

/-- `re.findall(r'\b[A-Z]{2,}(?:\s+[A-Z][a-z]+)*\b', s)`. -/
def capsFindall (s : Str) : List Str := capsScanGo s.length none s

-- ── Query tokens: `re.findall(r"[a-z0-9]+(?:[.\x27-][a-z0-9]+)*", q_lower)` ──

def isTokenChar (c : Char) : Bool := isLower c || c.isDigit

def isTokenSep (c : Char) : Bool := c == '.' || c == Char.ofNat 39 || c == '-'

def tokenGroupsGo : Nat → Str → Str × Str
  | 0, s => ([], s)
  | fuel + 1, s =>
    match s with
    | sep :: c :: rest =>
      if isTokenSep sep && isTokenChar c then
        let run := (c :: rest).takeWhile isTokenChar
        let r2 := (c :: rest).dropWhile isTokenChar
        let (ext, r3) := tokenGroupsGo fuel r2
        (sep :: (run ++ ext), r3)
      else ([], s)
    | _ => ([], s)

def tokenScanGo : Nat → Str → List Str
  | 0, _ => []
  | _ + 1, [] => []
  | fuel + 1, c :: rest =>
    if isTokenChar c then
      let run := (c :: rest).takeWhile isTokenChar
      let r := (c :: rest).dropWhile isTokenChar
      let p := tokenGroupsGo r.length r
      (run ++ p.1) :: tokenScanGo fuel p.2
    else tokenScanGo fuel rest

def tokenFindall (q : Str) : List Str := tokenScanGo q.length q

-- ── Configuration constants (main.py 49-52, 462) ─────────────────────────────

def CHUNK_SIZE : Nat := 280

def OVERLAP : Nat := 60

def MIN_CHUNK_WORDS : Nat := 40

def CACHE_VERSION : Str := lit "pplx-v1-280w-ctx2"

-- ── Data model ───────────────────────────────────────────────────────────────

/-- A parsed page record as produced by `parse_pdf`. -/
structure Page where
  doc_id : Str
  doc_name : Str
  page_num : Nat
  title : Str
  text : Str
deriving Repr, DecidableEq

/-- A chunk record as produced by `chunk_pages` and enriched afterwards.  The
`None` placeholder that `chunk_pages` leaves in `contextual_content` before
enrichment is modelled as the empty string; the chunking claims never read
it, and retrieval operates on enriched chunks where it is filled. -/
structure Chunk where
  id : Str
  page : Nat
  section_title : Str
  doc_id : Str
  doc_name : Str
  raw_content : Str
  contextual_content : Str
deriving Repr, DecidableEq

/-- One entry of the `/retrieve` result list built by `hybrid_search`. -/
structure SearchResult where
  chunk_id : Str
  page_number : Nat
  section_title : Str
  chunk_content : Str
  score : ℚ
  document_id : Str
  document_name : Str
deriving Repr, DecidableEq, Inhabited

/-- One entry of the `page_level_search` result list. -/
structure PageResult where
  page_num : Nat
  doc_id : Str
  title : Str
  score : ℚ
deriving Repr, DecidableEq

-- ── Chunker (`chunk_pages`, main.py 507-539) ─────────────────────────────────

/-- Python `str.split()`: split on whitespace runs, dropping empty pieces. -/
def splitWsGo : Nat → Str → List Str
  | 0, _ => []
  | _ + 1, [] => []
  | fuel + 1, c :: rest =>
    if c.isWhitespace then splitWsGo fuel rest
    else
      (c :: rest).takeWhile (fun x => !x.isWhitespace)
        :: splitWsGo fuel ((c :: rest).dropWhile (fun x => !x.isWhitespace))

def splitWs (s : Str) : List Str := splitWsGo s.length s

/-- Python `" ".join(words)`. -/
def joinWords : List Str → Str
  | [] => []
  | [w] => w
  | w :: ws => w ++ ' ' :: joinWords ws

/-- The stride `step = max(1, CHUNK_SIZE - OVERLAP)` of the chunker. -/
def chunkStep : Nat := max 1 (CHUNK_SIZE - OVERLAP)

/-- The `while start < len(words)` loop of `chunk_pages`: emit the slice
`words[start : start + CHUNK_SIZE]`, stop when it has fewer than 15 words,
advance by `chunkStep`.  The fuel argument only bounds the recursion; any
fuel ≥ the word count gives the loop's exact behaviour. -/
def windowsGo (words : List Str) : Nat → Nat → List (Nat × List Str)
  | 0, _ => []
  | fuel + 1, start =>
    if start < words.length then
      if ((words.drop start).take CHUNK_SIZE).length < 15 then []
      else (start, (words.drop start).take CHUNK_SIZE) :: windowsGo words fuel (start + chunkStep)
    else []

def windows (words : List Str) : List (Nat × List Str) := windowsGo words words.length 0

/-- Per-page window list of `chunk_pages`: pages with fewer than
`MIN_CHUNK_WORDS` words are skipped entirely. -/
def pageWindows (p : Page) : List (Nat × List Str) :=
  if (splitWs p.text).length < MIN_CHUNK_WORDS then [] else windows (splitWs p.text)

/-- Chunk ids are `f"chunk-{chunk_counter}"`. -/
def chunkId (n : Nat) : Str := lit "chunk-" ++ (Nat.repr n).data

def mkChunk (n : Nat) (p : Page) (slice : List Str) : Chunk :=
  { id := chunkId n
    page := p.page_num
    section_title := p.title
    doc_id := p.doc_id
    doc_name := p.doc_name
    raw_content := joinWords slice
    contextual_content := [] }

/-- The page loop of `chunk_pages`, threading the local `chunk_counter`. -/
def chunkPagesGo : Nat → List Page → List Chunk
  | _, [] => []
  | counter, p :: rest =>
    ((pageWindows p).enum.map (fun pr => mkChunk (counter + pr.1) p pr.2.2))
      ++ chunkPagesGo (counter + (pageWindows p).length) rest

/-- `chunk_pages` (main.py 507-539).  Note that the id counter is a local
variable initialised to 0 on every call. -/
def chunk_pages (pages : List Page) : List Chunk := chunkPagesGo 0 pages

-- ── Ingestion controller (`ingest_all_docs`, main.py 647-675) ────────────────

/-- The chunk-collection loop of `ingest_all_docs` over the sorted document
list.  Each document either parses to its page list or raises
(`Except.error`).  `ingest_pdf` is modelled by its parse-and-chunk
composition (a cache hit returns exactly the chunks a previous identical run
produced).  The source has no per-document exception handling: the first
failure propagates out of the loop and aborts the whole rebuild, leaving the
live index untouched. -/
def ingest_all_docs : List (Except Unit (List Page)) → Except Unit (List Chunk)
  | [] => Except.ok []
  | Except.error e :: _ => Except.error e
  | Except.ok pages :: rest =>
    match ingest_all_docs rest with
    | Except.error e => Except.error e
    | Except.ok acc => Except.ok (chunk_pages pages ++ acc)

-- ── Stale-cache sweep (`clean_stale_cache`, main.py 613-622) ─────────────────

/-- Does a file name match one of the two glob patterns `*.json`, `*.npy`
swept by `clean_stale_cache`? -/
def isSweptExt (f : Str) : Bool :=
  (lit ".json").isSuffixOf f || (lit ".npy").isSuffixOf f

/-- `clean_stale_cache` over the list of file names in the cache directory:
every `*.json` / `*.npy` file whose name does not contain `CACHE_VERSION` is
unlinked; all other files survive.  `ingest_all_docs` runs this sweep first
on every rebuild. -/
def clean_stale_cache (files : List Str) : List Str :=
  files.filter (fun f => !(isSweptExt f && !(containsSub CACHE_VERSION f)))

-- ── Score normalisation (`normalize_scores`, main.py 685-692) ────────────────

/-- `normalize_scores`: min-max normalisation of a scored list.  The returned
Python dict is modelled as the association list of its entries. -/
def normalize_scores {κ : Type} (scored : List (κ × ℚ)) : List (κ × ℚ) :=
  match scored with
  | [] => []
  | (c0, s0) :: rest =>
    let mn := (rest.map Prod.snd).foldl qMin s0
    let mx := (rest.map Prod.snd).foldl qMax s0
    if mx = mn then ((c0, s0) :: rest).map (fun pr => (pr.1, (1 : ℚ)))
    else ((c0, s0) :: rest).map (fun pr => (pr.1, qDiv (qSub pr.2 mn) (qSub mx mn)))

-- ── Score adjustment (`score_adjustment`, main.py 786-816) ───────────────────

/-- `query_asks_phone` (main.py 791). -/
def asksPhone (query : Str) : Bool :=
  let q := lower query
  wordOccurs (lit "phone") q || wordOccurs (lit "hotline") q
    || wordOccurs (lit "number") q || wordOccurs (lit "contact") q

/-- `_LOW_PRIORITY_SECTIONS.search(title)` (main.py 696-699): a plain
substring alternation, case-insensitive. -/
def lowPrioritySections (title : Str) : Bool :=
  let t := lower title
  containsSub (lit "appendix") t || containsSub (lit "faq") t
    || containsSub (lit "glossary") t || containsSub (lit "table of contents") t
    || containsSub (lit "index") t || containsSub (lit "job duty card") t
    || containsSub (lit "marshal job") t || containsSub (lit "election night only") t
    || containsSub (lit "nightly closing") t

/-- One position of `_LOW_PRIORITY_CONTENT` (main.py 700-703), on lowered
text: `appendix\s+\d+`, `faq,? continued`, `job duty card`,
`marshal job duty`. -/
def lowPriorityContentAt (s : Str) : Bool :=
  ((lit "appendix").isPrefixOf s &&
    (let r := (s.drop 8).takeWhile Char.isWhitespace
     let r2 := (s.drop 8).dropWhile Char.isWhitespace
     !r.isEmpty &&
       (match r2 with
        | c :: _ => c.isDigit
        | [] => false)))
  || (lit "faq, continued").isPrefixOf s
  || (lit "faq continued").isPrefixOf s
  || (lit "job duty card").isPrefixOf s
  || (lit "marshal job duty").isPrefixOf s

def lowPriorityContent (raw : Str) : Bool := anySuffix lowPriorityContentAt (lower raw)

/-- `score_adjustment` (main.py 793-816), with `query_times`, `query_nums`
and `query_asks_phone` (789-791) recomputed from the query.  Python's `set`
only deduplicates; the resulting sum does not depend on iteration order. -/
def score_adjustment (query : Str) (c : Chunk) : ℚ :=
  let raw := c.raw_content
  let title := c.section_title
  let query_times := dedupFirst (timeFindall query)
  let query_nums := dedupFirst (numFindall query)
  let a1 := (query_times.filter (fun t => containsSub (lower t) (lower raw))).foldl
    (fun acc _ => qAdd acc (mkRat 3 20)) 0
  let a2 := (query_nums.filter (fun n => wordOccurs n raw)).foldl
    (fun acc _ => qAdd acc (mkRat 1 20)) a1
  let a3 := if timeSearch raw then qAdd a2 (mkRat 1 20) else a2
  let a4 := if asksPhone query && phoneSearch raw then qAdd a3 (mkRat 3 10) else a3
  let a5 := if lowPrioritySections title then qSub a4 (mkRat 1 2) else a4
  let a6 := if lowPriorityContent raw then qSub a5 (mkRat 2 5) else a5
  a6

-- ── Fusion (`hybrid_search` part 1, main.py 771-829) ─────────────────────────

/-- `text_to_id = {c["contextual_content"]: c["id"] for c in chunks}`. -/
def text_to_id (chunks : List Chunk) : List (Str × Str) :=
  chunks.map (fun c => (c.contextual_content, c.id))

/-- Mapping the raw BM25 retrieval output `(doc_text, score)` back to chunk
ids (main.py 775-779).  `if cid:` skips both a missing key and an empty id. -/
def bm25Scored (chunks : List Chunk) (bm25Raw : List (Str × ℚ)) : List (Str × ℚ) :=
  bm25Raw.filterMap (fun pr =>
    match lookupLast (text_to_id chunks) pr.1 with
    | some cid => if cid.isEmpty then none else some (cid, pr.2)
    | none => none)

/-- `cosine_scored` (main.py 783): the dense score of every chunk.  The
cosine similarity against the embedded query is the snapshot-supplied
function `qsim`. -/
def cosineScored (chunks : List Chunk) (qsim : Chunk → ℚ) : List (Str × ℚ) :=
  chunks.map (fun c => (c.id, qsim c))

/-- `id_to_chunk = {c["id"]: c for c in chunks}`. -/
def id_to_chunk (chunks : List Chunk) : List (Str × Chunk) :=
  chunks.map (fun c => (c.id, c))

/-- The `{}` default of `id_to_chunk.get(cid, {})`: `score_adjustment` reads
its `raw_content` and `section_title` as empty strings. -/
def emptyChunk : Chunk :=
  { id := [], page := 0, section_title := [], doc_id := [], doc_name := [],
    raw_content := [], contextual_content := [] }

/-- The fused score dict (main.py 818-828):
`0.5·bm25_norm + 0.5·cosine_norm + score_adjustment`, over
`all_ids = set(bm25_norm) | set(cosine_norm)` in first-occurrence order. -/
def fusedList (chunks : List Chunk) (bm25Raw : List (Str × ℚ)) (qsim : Chunk → ℚ)
    (query : Str) : List (Str × ℚ) :=
  let bm25_norm := normalize_scores (bm25Scored chunks bm25Raw)
  let cosine_norm := normalize_scores (cosineScored chunks qsim)
  let all_ids := dedupFirst (bm25_norm.map Prod.fst ++ cosine_norm.map Prod.fst)
  all_ids.map (fun cid =>
    (cid, qAdd (qAdd (qMul (mkRat 1 2) ((lookupLast bm25_norm cid).getD 0))
                     (qMul (mkRat 1 2) ((lookupLast cosine_norm cid).getD 0)))
               (score_adjustment query ((lookupLast (id_to_chunk chunks) cid).getD emptyChunk))))

/-- `fused.get(cid, 0.0)`. -/
def fusedGet (fused : List (Str × ℚ)) (cid : Str) : ℚ := (lookupLast fused cid).getD 0

/-- `sorted(fused, key=lambda x: -fused[x])`: a stable descending sort of the
dict keys by fused score (Python's sort is stable; insertion sort with this
relation places earlier keys first on ties). -/
def sortedIds (fused : List (Str × ℚ)) : List Str :=
  List.insertionSort (fun a b => fusedGet fused b ≤ fusedGet fused a) (fused.map Prod.fst)

-- ── Keyword rescue (`_keyword_rescue`, main.py 834-888) ──────────────────────

/-- The fixed `_stop` set of `_keyword_rescue` (main.py 838-850). -/
def rescueStop : List Str :=
  [lit "the", lit "and", lit "for", lit "are", lit "was", lit "how", lit "what",
   lit "when", lit "where", lit "who", lit "does", lit "can", lit "they",
   lit "their", lit "this", lit "that", lit "with", lit "from", lit "have",
   lit "been", lit "will", lit "would", lit "should", lit "could", lit "about",
   lit "into", lit "than", lit "also", lit "just", lit "very", lit "much",
   lit "some", lit "any", lit "all", lit "each", lit "which", lit "there",
   lit "these", lit "those", lit "other", lit "your", lit "after", lit "before",
   lit "between", lit "during", lit "through", lit "above", lit "below",
   lit "out", lit "off", lit "over", lit "under", lit "again", lit "further",
   lit "then", lit "once", lit "here", lit "why", lit "both", lit "few",
   lit "more", lit "most", lit "such", lit "only", lit "same", lit "too",
   lit "but", lit "not", lit "own", lit "its", lit "our", lit "you", lit "has",
   lit "had", lit "did", lit "get", lit "got", lit "let", lit "may", lit "use",
   lit "way", lit "try", lit "ask", lit "put", lit "say", lit "take",
   lit "come", lit "make", lit "like", lit "know", lit "see", lit "think",
   lit "want", lit "give", lit "tell", lit "call", lit "keep", lit "show",
   lit "turn", lit "move", lit "need", lit "still", lit "might", lit "must",
   lit "shall", lit "upon", lit "onto", lit "within", lit "without",
   lit "along", lit "since", lit "until", lit "while", lit "whom", lit "whose"]

/-- The distinctive query token list (main.py 851): tokens of the lowered
query of length ≥ 3 that are not stop words.  Repeated query words yield
repeated entries. -/
def rescueWords (query : Str) : List Str :=
  (tokenFindall (lower query)).filter (fun w => 3 ≤ w.length && !(rescueStop.contains w))

/-- `specific_terms` (main.py 853-854): phone numbers plus all-caps
identifier phrases extracted from the raw query. -/
def specificTerms (query : Str) : List Str :=
  phoneRescueFindall query ++ capsFindall query

/-- The acceptance test of one candidate inside `_keyword_rescue`
(main.py 868-883): a verbatim (lowered) high-value term in
`raw + " " + contextual`, else at least `max(2, len(words)//2)` matching
token occurrences, counted over the token list with its repetitions. -/
def acceptChunk (query : Str) (c : Chunk) : Bool :=
  let combined := lower c.raw_content ++ ' ' :: lower c.contextual_content
  (specificTerms query).any (fun t => containsSub (lower t) combined)
    || decide (max 2 ((rescueWords query).length / 2)
         ≤ ((rescueWords query).filter (fun w => containsSub w combined)).length)

/-- The candidate loop of `_keyword_rescue` (main.py 865-886): skip ids
already rescued, append accepted candidates, stop once `k` are collected
(the length check runs at the end of every non-skipped iteration). -/
def rescueLoop (accept : Chunk → Bool) (k : Nat) :
    List Chunk → List Chunk → List Str → List Chunk
  | [], rescued, _ => rescued
  | c :: rest, rescued, rids =>
    if c.id ∈ rids then rescueLoop accept k rest rescued rids
    else
      if accept c then
        if k ≤ rescued.length + 1 then rescued ++ [c]
        else rescueLoop accept k rest (rescued ++ [c]) (c.id :: rids)
      else
        if k ≤ rescued.length then rescued
        else rescueLoop accept k rest rescued rids

/-- `_keyword_rescue(query, fused_scores, already, k)` (main.py 834-888):
candidates not already in the results, in stable descending fused-score
order. -/
def keyword_rescue (query : Str) (chunks : List Chunk) (fused : List (Str × ℚ))
    (already : List Str) (k : Nat) : List Chunk :=
  rescueLoop (acceptChunk query) k
    (List.insertionSort (fun a b => fusedGet fused b.id ≤ fusedGet fused a.id)
      (chunks.filter (fun c => !(already.contains c.id)))) [] []

-- ── Result assembly (`hybrid_search` part 2, main.py 890-954) ────────────────

def mkResult (c : Chunk) (score : ℚ) : SearchResult :=
  { chunk_id := c.id
    page_number := c.page
    section_title := c.section_title
    chunk_content := c.raw_content
    score := score
    document_id := c.doc_id
    document_name := c.doc_name }

/-- Primary fill (main.py 895-910): walk `sorted_ids`, append each found
chunk, and break once `len(results) ≥ top_k - 5` — a signed comparison, as
`top_k - 5` may be negative in Python. -/
def primaryFill (idc : List (Str × Chunk)) (fused : List (Str × ℚ)) (top_k : Nat) :
    List Str → List SearchResult → List SearchResult
  | [], acc => acc
  | cid :: rest, acc =>
    match lookupLast idc cid with
    | none => primaryFill idc fused top_k rest acc
    | some c =>
      if (top_k : ℤ) - 5 ≤ ((acc.length : ℤ) + 1) then acc ++ [mkResult c (fusedGet fused cid)]
      else primaryFill idc fused top_k rest (acc ++ [mkResult c (fusedGet fused cid)])

/-- Appending the rescued chunks (main.py 914-927), breaking once
`len(results) ≥ top_k` after each append. -/
def rescueFill (fused : List (Str × ℚ)) (top_k : Nat) :
    List Chunk → List SearchResult → List SearchResult
  | [], acc => acc
  | c :: rest, acc =>
    if top_k ≤ acc.length + 1 then acc ++ [mkResult c (fusedGet fused c.id)]
    else rescueFill fused top_k rest (acc ++ [mkResult c (fusedGet fused c.id)])

-- ── Page-level rescue (`page_level_search`, main.py 715-758, and 929-952) ────

/-- The page key `f"[{p['title']}] {p['text']}"`. -/
def pageKey (p : Page) : Str := '[' :: (p.title ++ ']' :: ' ' :: p.text)

def page_text_to_idx (pages : List Page) : List (Str × Nat) :=
  pages.enum.map (fun pr => (pageKey pr.2, pr.1))

/-- `page_level_search(query, top_k)` (main.py 715-758), parameterised by the
raw page-level BM25 output and the page cosine function of the snapshot.
Page indices play the role of the stringified indices of the source. -/
def page_level_search (pages : List Page) (pageBm25Raw : List (Str × ℚ))
    (psim : Page → ℚ) (top_k : Nat) : List PageResult :=
  if pages.isEmpty then []
  else
    let bm25_scored : List (Nat × ℚ) := pageBm25Raw.filterMap (fun pr =>
      (lookupLast (page_text_to_idx pages) pr.1).map (fun i => (i, pr.2)))
    let cosine_scored : List (Nat × ℚ) := pages.enum.map (fun pr => (pr.1, psim pr.2))
    let bm25_norm := normalize_scores bm25_scored
    let cosine_norm := normalize_scores cosine_scored
    let all_ids := dedupFirst (bm25_norm.map Prod.fst ++ cosine_norm.map Prod.fst)
    let fused := all_ids.map (fun i =>
      (i, qAdd (qMul (mkRat 1 2) (((lookupLast bm25_norm i).getD 0)))
               (qMul (mkRat 1 2) (((lookupLast cosine_norm i).getD 0)))))
    let fGet := fun i => (lookupLast fused i).getD 0
    let sorted_ids := (List.insertionSort (fun a b => fGet b ≤ fGet a)
      (fused.map Prod.fst)).take top_k
    sorted_ids.filterMap (fun i =>
      (pages.get? i).map (fun p =>
        { page_num := p.page_num, doc_id := p.doc_id, title := p.title, score := fGet i }))

/-- Python's `max(page_chunks, key=lambda c: fused.get(c["id"], 0.0))`:
first maximal element. -/
def maxByFused (fused : List (Str × ℚ)) : List Chunk → Option Chunk
  | [] => none
  | c :: rest =>
    some (rest.foldl (fun best x =>
      if fusedGet fused best.id < fusedGet fused x.id then x else best) c)

/-- The page-rescue injection loop (main.py 933-952).  `pagesAlready` is the
set `{r["page_number"] for r in results}`, computed once before the loop;
the excluded-id set is the growing `result_ids`, read from the accumulated
results. -/
def pageFillGo (chunks : List Chunk) (fused : List (Str × ℚ)) (pagesAlready : List Nat) :
    List PageResult → List SearchResult → List SearchResult
  | [], results => results
  | pr :: rest, results =>
    if pr.page_num ∈ pagesAlready then pageFillGo chunks fused pagesAlready rest results
    else
      match maxByFused fused (chunks.filter (fun c =>
        c.page == pr.page_num && c.doc_id == pr.doc_id
          && !((results.map SearchResult.chunk_id).contains c.id))) with
      | none => pageFillGo chunks fused pagesAlready rest results
      | some best =>
        pageFillGo chunks fused pagesAlready rest
          (results ++ [mkResult best (fusedGet fused best.id)])

-- ── `hybrid_search` (main.py 761-954) ────────────────────────────────────────

/-- The fused score dict of one query against one snapshot. -/
def hybridFused (chunks : List Chunk) (bm25Raw : List (Str × ℚ)) (qsim : Chunk → ℚ)
    (query : Str) : List (Str × ℚ) :=
  fusedList chunks bm25Raw qsim query

/-- Results after the primary fill (main.py 895-910). -/
def hybridPrimary (chunks : List Chunk) (bm25Raw : List (Str × ℚ)) (qsim : Chunk → ℚ)
    (query : Str) (top_k : Nat) : List SearchResult :=
  primaryFill (id_to_chunk chunks) (hybridFused chunks bm25Raw qsim query) top_k
    (sortedIds (hybridFused chunks bm25Raw qsim query)) []

/-- Results after primary fill and keyword rescue (main.py 890-927). -/
def hybridRescued (chunks : List Chunk) (bm25Raw : List (Str × ℚ)) (qsim : Chunk → ℚ)
    (query : Str) (top_k : Nat) : List SearchResult :=
  rescueFill (hybridFused chunks bm25Raw qsim query) top_k
    (keyword_rescue query chunks (hybridFused chunks bm25Raw qsim query)
      ((hybridPrimary chunks bm25Raw qsim query top_k).map SearchResult.chunk_id) 5)
    (hybridPrimary chunks bm25Raw qsim query top_k)

/-- `hybrid_search(query, top_k)` (main.py 761-954) against a fixed index
snapshot: the chunk list, the raw BM25 retrieval output for the query, the
chunk cosine function, the page store with its raw BM25 output and page
cosine function.  `expand_query` is the identity (main.py 705-712). -/
def hybrid_search (chunks : List Chunk) (bm25Raw : List (Str × ℚ)) (qsim : Chunk → ℚ)
    (pages : List Page) (pageBm25Raw : List (Str × ℚ)) (psim : Page → ℚ)
    (query : Str) (top_k : Nat) : List SearchResult :=
  if chunks.isEmpty then []
  else
    if hybridRescued chunks bm25Raw qsim query top_k ≠ [] ∧
        (hybridRescued chunks bm25Raw qsim query top_k).headI.score < mkRat 3 5 ∧
        pages ≠ [] then
      pageFillGo chunks (hybridFused chunks bm25Raw qsim query)
        ((hybridRescued chunks bm25Raw qsim query top_k).map SearchResult.page_number)
        (page_level_search pages pageBm25Raw psim 3)
        (hybridRescued chunks bm25Raw qsim query top_k)
    else hybridRescued chunks bm25Raw qsim query top_k

-- ── Variant definitions and concrete fixtures used by the claim analyses ─────

/-- `score_adjustment` with the broad time-boost lines (main.py 804-806)
removed.  Used by C4 to isolate exactly what that boost contributes. -/
def score_adjustment_no_time_boost (query : Str) (c : Chunk) : ℚ :=
  let raw := c.raw_content
  let title := c.section_title
  let query_times := dedupFirst (timeFindall query)
  let query_nums := dedupFirst (numFindall query)
  let a1 := (query_times.filter (fun t => containsSub (lower t) (lower raw))).foldl
    (fun acc _ => qAdd acc (mkRat 3 20)) 0
  let a2 := (query_nums.filter (fun n => wordOccurs n raw)).foldl
    (fun acc _ => qAdd acc (mkRat 1 20)) a1
  let a4 := if asksPhone query && phoneSearch raw then qAdd a2 (mkRat 3 10) else a2
  let a5 := if lowPrioritySections title then qSub a4 (mkRat 1 2) else a4
  let a6 := if lowPriorityContent raw then qSub a5 (mkRat 2 5) else a5
  a6

/-- A one-page document with exactly `MIN_CHUNK_WORDS` (40) words. -/
def samplePageA : Page :=
  { doc_id := lit "doc-a", doc_name := lit "manual-a.pdf", page_num := 1,
    title := lit "Introduction", text := joinWords (List.replicate 40 (lit "alpha")) }

/-- A second one-page document, distinct from `samplePageA`. -/
def samplePageB : Page :=
  { doc_id := lit "doc-b", doc_name := lit "manual-b.pdf", page_num := 1,
    title := lit "Introduction", text := joinWords (List.replicate 40 (lit "beta")) }

/-- A chunk whose raw content contains a time expression (`6:00 AM`), in a
neutral section. -/
def timeChunk : Chunk :=
  { id := lit "chunk-0", page := 3, section_title := lit "Section 5: Election Day",
    doc_id := lit "doc-a", doc_name := lit "manual-a.pdf",
    raw_content := lit "Polls open at 6:00 AM on Tuesday",
    contextual_content := lit "[Section 5: Election Day] Polls open at 6:00 AM on Tuesday" }

/-- A page with fewer than `MIN_CHUNK_WORDS` words. -/
def shortPage : Page :=
  { doc_id := lit "doc-a", doc_name := lit "manual-a.pdf", page_num := 2,
    title := lit "Stub", text := lit "too few words here" }

/-- Builder for small retrieval fixtures: chunk `chunk-<n>` on page `pg` of
document `doc-a`, with identical raw and contextual content. -/
def sampleChunk (n : Nat) (pg : Nat) (raw : String) : Chunk :=
  { id := chunkId n, page := pg, section_title := lit "Section 1",
    doc_id := lit "doc-a", doc_name := lit "manual-a.pdf",
    raw_content := lit raw, contextual_content := lit raw }

/-- Two-chunk snapshot where the second chunk qualifies for keyword rescue on
the query `ballot box location`. -/
def twoChunks : List Chunk :=
  [sampleChunk 0 1 "nothing of note in this text",
   sampleChunk 1 1 "ballot box procedures step one"]

/-- Seven-chunk snapshot: five rescue-eligible chunks on page 1 plus a chunk
on page 7, used to overflow `top_k` through the page-level pass. -/
def sevenChunks : List Chunk :=
  [sampleChunk 0 1 "nothing of note in this text",
   sampleChunk 1 1 "ballot box procedures step one",
   sampleChunk 2 1 "ballot box procedures step two",
   sampleChunk 3 1 "ballot box procedures step three",
   sampleChunk 4 1 "ballot box procedures step four",
   sampleChunk 5 1 "ballot box procedures step five",
   sampleChunk 6 7 "supplies are stored in the annex"]

/-- The page record behind `sampleChunk 6`. -/
def annexPage : Page :=
  { doc_id := lit "doc-a", doc_name := lit "manual-a.pdf", page_num := 7,
    title := lit "Section 2", text := lit "supplies are stored in the annex" }

/-- A chunk containing the single distinctive token `ballot`, used by the C6
counterexample with a query repeating that token. -/
def dupTokenChunk : Chunk := sampleChunk 7 2 "ballot procedures manual"

/-- The keyword-rescue acceptance test as the amended claim words it: some
high-value pattern of the query occurs (lowered) in the chunk's raw plus
contextual content, or else the number of query-token occurrences found in
that content — counted over the token list with its repetitions — is at
least `max(2, ⌊|tokens|/2⌋)`, `|tokens|` also counted with repetitions. -/
def acceptSpec (query : Str) (c : Chunk) : Bool :=
  ((phoneRescueFindall query ++ capsFindall query).any (fun t =>
    containsSub (lower t) (lower c.raw_content ++ ' ' :: lower c.contextual_content)))
  || decide (max 2 ((rescueWords query).length / 2) ≤
      (rescueWords query).countP (fun w =>
        containsSub w (lower c.raw_content ++ ' ' :: lower c.contextual_content)))

/-- Keep-first deduplication of chunks by id, given ids already taken. -/
def dedupById (seen : List Str) : List Chunk → List Chunk
  | [] => []
  | c :: rest =>
    if c.id ∈ seen then dedupById seen rest
    else c :: dedupById (c.id :: seen) rest

/-- The keyword-rescue pass as the amended claim describes it: consider the
not-already-selected chunks in stable descending fused-score order, keep
those passing `acceptSpec`, drop repeated chunk ids keeping the first, and
return the first `k`. -/
def keywordRescueSpec (query : Str) (chunks : List Chunk) (fused : List (Str × ℚ))
    (already : List Str) (k : Nat) : List Chunk :=
  (dedupById []
    ((List.insertionSort (fun a b => fusedGet fused b.id ≤ fusedGet fused a.id)
      (chunks.filter (fun c => !(already.contains c.id)))).filter
        (acceptSpec query))).take k

-- ═══ THEOREMS ════════════════════════════════════════════════════════════════

-- ── Properties of the kernel-computable rational operations ──────────────────

theorem den_cast_ne_zero (a : ℚ) : ((a.den : ℚ)) ≠ 0 :=
  Nat.cast_ne_zero.mpr a.den_ne_zero

theorem num_eq_mul_den (a : ℚ) : ((a.num : ℚ)) = a * a.den :=
  (div_eq_iff (den_cast_ne_zero a)).mp (Rat.num_div_den a)

theorem qAdd_eq (a b : ℚ) : qAdd a b = a + b := by
  rw [qAdd, Rat.mkRat_eq_div]
  push_cast
  rw [div_eq_iff (mul_ne_zero (den_cast_ne_zero a) (den_cast_ne_zero b)),
    num_eq_mul_den a, num_eq_mul_den b]
  ring

theorem qMul_eq (a b : ℚ) : qMul a b = a * b := by
  rw [qMul, Rat.mkRat_eq_div]
  push_cast
  rw [div_eq_iff (mul_ne_zero (den_cast_ne_zero a) (den_cast_ne_zero b)),
    num_eq_mul_den a, num_eq_mul_den b]
  ring

theorem qNeg_eq (a : ℚ) : qNeg a = -a := by
  rw [qNeg, Rat.mkRat_eq_div]
  push_cast
  rw [div_eq_iff (den_cast_ne_zero a), num_eq_mul_den a]
  ring

theorem qSub_eq (a b : ℚ) : qSub a b = a - b := by
  rw [qSub, qAdd_eq, qNeg_eq, sub_eq_add_neg]

theorem qInv_eq (b : ℚ) : qInv b = b⁻¹ := by
  rw [Rat.inv_def', Rat.divInt_eq_div, qInv]
  by_cases hb : b.num < 0
  · rw [if_pos hb, Rat.mkRat_eq_div]
    have h1 : (((-b.num).toNat : ℕ) : ℚ) = ((-b.num : ℤ) : ℚ) := by
      exact_mod_cast congrArg (fun z : ℤ => (z : ℚ)) (Int.toNat_of_nonneg (neg_nonneg.mpr hb.le))
    rw [h1]
    push_cast
    rw [div_neg, neg_div, neg_neg]
  · rw [if_neg hb, Rat.mkRat_eq_div]
    have h1 : ((b.num.toNat : ℕ) : ℚ) = ((b.num : ℤ) : ℚ) := by
      exact_mod_cast congrArg (fun z : ℤ => (z : ℚ)) (Int.toNat_of_nonneg (not_lt.mp hb))
    rw [h1]

theorem qDiv_eq (a b : ℚ) : qDiv a b = a / b := by
  rw [qDiv, qMul_eq, qInv_eq, div_eq_mul_inv]

theorem qMin_eq (a b : ℚ) : qMin a b = min a b := by
  rw [qMin, min_def]

theorem qMax_eq (a b : ℚ) : qMax a b = max a b := by
  rw [qMax, max_def]

-- ── Properties of the dict / set helpers ─────────────────────────────────────

theorem dedupFirstGo_mem {κ : Type} [DecidableEq κ] (l : List κ) :
    ∀ (seen : List κ) (x : κ), x ∈ dedupFirstGo seen l ↔ x ∈ l ∧ x ∉ seen := by
  induction l with
  | nil => intro seen x; simp [dedupFirstGo]
  | cons k rest ih =>
    intro seen x
    rw [dedupFirstGo]
    by_cases hk : k ∈ seen
    · rw [if_pos hk, ih]
      constructor
      · rintro ⟨hm, hs⟩
        exact ⟨List.mem_cons_of_mem _ hm, hs⟩
      · rintro ⟨hm, hs⟩
        rcases List.mem_cons.mp hm with rfl | hm
        · exact absurd hk hs
        · exact ⟨hm, hs⟩
    · rw [if_neg hk]
      constructor
      · intro hmem
        rcases List.mem_cons.mp hmem with rfl | hm
        · exact ⟨List.mem_cons_self _ _, hk⟩
        · rcases (ih _ _).mp hm with ⟨hm', hs'⟩
          exact ⟨List.mem_cons_of_mem _ hm', fun hx => hs' (List.mem_cons_of_mem _ hx)⟩
      · rintro ⟨hmem, hs⟩
        rcases List.mem_cons.mp hmem with rfl | hm
        · exact List.mem_cons_self _ _
        · by_cases hxk : x = k
          · subst hxk
            exact List.mem_cons_self _ _
          · refine List.mem_cons_of_mem _ ((ih _ _).mpr ⟨hm, fun hx => ?_⟩)
            rcases List.mem_cons.mp hx with h1 | h2
            · exact hxk h1
            · exact hs h2

theorem dedupFirstGo_nodup {κ : Type} [DecidableEq κ] (l : List κ) :
    ∀ seen : List κ, (dedupFirstGo seen l).Nodup := by
  induction l with
  | nil => intro seen; simp [dedupFirstGo]
  | cons k rest ih =>
    intro seen
    rw [dedupFirstGo]
    by_cases hk : k ∈ seen
    · rw [if_pos hk]; exact ih seen
    · rw [if_neg hk]
      refine List.nodup_cons.mpr ⟨?_, ih (k :: seen)⟩
      intro hmem
      rcases (dedupFirstGo_mem rest (k :: seen) k).mp hmem with ⟨_, hs⟩
      exact hs (List.mem_cons_self _ _)

theorem dedupFirst_nodup {κ : Type} [DecidableEq κ] (l : List κ) :
    (dedupFirst l).Nodup := dedupFirstGo_nodup l []

theorem dedupFirst_mem {κ : Type} [DecidableEq κ] (l : List κ) (x : κ) :
    x ∈ dedupFirst l ↔ x ∈ l := by
  rw [dedupFirst, dedupFirstGo_mem]
  simp

-- ── Extrema of score lists via `foldl qMin` / `foldl qMax` ───────────────────

theorem foldl_qMin_le_init (l : List ℚ) : ∀ a : ℚ, l.foldl qMin a ≤ a := by
  induction l with
  | nil => intro a; exact le_refl a
  | cons x xs ih =>
    intro a
    rw [List.foldl_cons]
    exact le_trans (ih (qMin a x)) (by rw [qMin_eq]; exact min_le_left _ _)

theorem foldl_qMin_le (l : List ℚ) : ∀ (a x : ℚ), x ∈ l → l.foldl qMin a ≤ x := by
  induction l with
  | nil => intro a x hx; cases hx
  | cons y ys ih =>
    intro a x hx
    rw [List.foldl_cons]
    rcases List.mem_cons.mp hx with rfl | hx
    · exact le_trans (foldl_qMin_le_init ys (qMin a x)) (by rw [qMin_eq]; exact min_le_right _ _)
    · exact ih _ _ hx

theorem foldl_qMin_mem (l : List ℚ) : ∀ a : ℚ, l.foldl qMin a = a ∨ l.foldl qMin a ∈ l := by
  induction l with
  | nil => intro a; exact Or.inl rfl
  | cons y ys ih =>
    intro a
    rw [List.foldl_cons]
    have hm : qMin a y = a ∨ qMin a y = y := by
      rw [qMin]; split
      · exact Or.inl rfl
      · exact Or.inr rfl
    rcases ih (qMin a y) with h | h
    · rcases hm with hy | hy
      · exact Or.inl (h.trans hy)
      · exact Or.inr (by rw [h, hy]; exact List.mem_cons_self _ _)
    · exact Or.inr (List.mem_cons_of_mem _ h)

theorem foldl_qMax_init_le (l : List ℚ) : ∀ a : ℚ, a ≤ l.foldl qMax a := by
  induction l with
  | nil => intro a; exact le_refl a
  | cons x xs ih =>
    intro a
    rw [List.foldl_cons]
    exact le_trans (by rw [qMax_eq]; exact le_max_left _ _) (ih (qMax a x))

theorem foldl_qMax_le (l : List ℚ) : ∀ (a x : ℚ), x ∈ l → x ≤ l.foldl qMax a := by
  induction l with
  | nil => intro a x hx; cases hx
  | cons y ys ih =>
    intro a x hx
    rw [List.foldl_cons]
    rcases List.mem_cons.mp hx with rfl | hx
    · exact le_trans (by rw [qMax_eq]; exact le_max_right _ _) (foldl_qMax_init_le ys (qMax a x))
    · exact ih _ _ hx

theorem foldl_qMax_mem (l : List ℚ) : ∀ a : ℚ, l.foldl qMax a = a ∨ l.foldl qMax a ∈ l := by
  induction l with
  | nil => intro a; exact Or.inl rfl
  | cons y ys ih =>
    intro a
    rw [List.foldl_cons]
    have hm : qMax a y = a ∨ qMax a y = y := by
      rw [qMax]; split
      · exact Or.inr rfl
      · exact Or.inl rfl
    rcases ih (qMax a y) with h | h
    · rcases hm with hy | hy
      · exact Or.inl (h.trans hy)
      · exact Or.inr (by rw [h, hy]; exact List.mem_cons_self _ _)
    · exact Or.inr (List.mem_cons_of_mem _ h)

-- ── Structure of `normalize_scores` on a non-empty list ──────────────────────

theorem normalize_scores_cons {κ : Type} (c0 : κ) (s0 : ℚ) (rest : List (κ × ℚ)) :
    normalize_scores ((c0, s0) :: rest) =
      (if (rest.map Prod.snd).foldl qMax s0 = (rest.map Prod.snd).foldl qMin s0 then
        ((c0, s0) :: rest).map (fun pr => (pr.1, (1 : ℚ)))
      else
        ((c0, s0) :: rest).map (fun pr =>
          (pr.1, qDiv (qSub pr.2 ((rest.map Prod.snd).foldl qMin s0))
            (qSub ((rest.map Prod.snd).foldl qMax s0) ((rest.map Prod.snd).foldl qMin s0))))) := by
  rfl

theorem normalize_mn_le {κ : Type} (c0 : κ) (s0 : ℚ) (rest : List (κ × ℚ)) :
    ∀ q ∈ (c0, s0) :: rest, (rest.map Prod.snd).foldl qMin s0 ≤ q.2 := by
  intro q hq
  rcases List.mem_cons.mp hq with rfl | hq
  · exact foldl_qMin_le_init _ _
  · exact foldl_qMin_le _ _ _ (List.mem_map_of_mem Prod.snd hq)

theorem normalize_le_mx {κ : Type} (c0 : κ) (s0 : ℚ) (rest : List (κ × ℚ)) :
    ∀ q ∈ (c0, s0) :: rest, q.2 ≤ (rest.map Prod.snd).foldl qMax s0 := by
  intro q hq
  rcases List.mem_cons.mp hq with rfl | hq
  · exact foldl_qMax_init_le _ _
  · exact foldl_qMax_le _ _ _ (List.mem_map_of_mem Prod.snd hq)

theorem normalize_mn_attained {κ : Type} (c0 : κ) (s0 : ℚ) (rest : List (κ × ℚ)) :
    ∃ q ∈ (c0, s0) :: rest, q.2 = (rest.map Prod.snd).foldl qMin s0 := by
  rcases foldl_qMin_mem (rest.map Prod.snd) s0 with h | h
  · exact ⟨(c0, s0), List.mem_cons_self _ _, h.symm⟩
  · rcases List.mem_map.mp h with ⟨q, hq, hq2⟩
    exact ⟨q, List.mem_cons_of_mem _ hq, hq2⟩

theorem normalize_mx_attained {κ : Type} (c0 : κ) (s0 : ℚ) (rest : List (κ × ℚ)) :
    ∃ q ∈ (c0, s0) :: rest, q.2 = (rest.map Prod.snd).foldl qMax s0 := by
  rcases foldl_qMax_mem (rest.map Prod.snd) s0 with h | h
  · exact ⟨(c0, s0), List.mem_cons_self _ _, h.symm⟩
  · rcases List.mem_map.mp h with ⟨q, hq, hq2⟩
    exact ⟨q, List.mem_cons_of_mem _ hq, hq2⟩

theorem normalize_mem_bounds {κ : Type} (scored : List (κ × ℚ)) :
    ∀ p ∈ normalize_scores scored, 0 ≤ p.2 ∧ p.2 ≤ 1 := by
  match scored with
  | [] => intro p hp; cases hp
  | (c0, s0) :: rest =>
    intro p hp
    rw [normalize_scores_cons] at hp
    set mn := (rest.map Prod.snd).foldl qMin s0 with hmn
    set mx := (rest.map Prod.snd).foldl qMax s0 with hmx
    by_cases h : mx = mn
    · rw [if_pos h] at hp
      rcases List.mem_map.mp hp with ⟨q, _, rfl⟩
      exact ⟨zero_le_one, le_refl 1⟩
    · rw [if_neg h] at hp
      rcases List.mem_map.mp hp with ⟨q, hq, rfl⟩
      have h1 : mn ≤ q.2 := normalize_mn_le c0 s0 rest q hq
      have h2 : q.2 ≤ mx := normalize_le_mx c0 s0 rest q hq
      have hlt : mn < mx :=
        lt_of_le_of_ne (le_trans (normalize_mn_le c0 s0 rest (c0, s0) (List.mem_cons_self _ _))
          (normalize_le_mx c0 s0 rest (c0, s0) (List.mem_cons_self _ _))) (Ne.symm h)
      constructor
      · simp only [qDiv_eq, qSub_eq]
        exact div_nonneg (sub_nonneg.mpr h1) (sub_nonneg.mpr hlt.le)
      · simp only [qDiv_eq, qSub_eq]
        rw [div_le_one (sub_pos.mpr hlt)]
        exact sub_le_sub_right h2 mn

theorem normalize_min_to_zero {κ : Type} (scored : List (κ × ℚ)) :
    ∀ p ∈ scored, (∀ q ∈ scored, p.2 ≤ q.2) → (∃ q ∈ scored, q.2 ≠ p.2) →
      (p.1, (0 : ℚ)) ∈ normalize_scores scored := by
  match scored with
  | [] => intro p hp; cases hp
  | (c0, s0) :: rest =>
    intro p hp hmin hne
    rw [normalize_scores_cons]
    set mn := (rest.map Prod.snd).foldl qMin s0 with hmn
    set mx := (rest.map Prod.snd).foldl qMax s0 with hmx
    have hpmn : p.2 = mn := by
      rcases normalize_mn_attained c0 s0 rest with ⟨qm, hqm, hqm2⟩
      have h1 := hmin qm hqm
      rw [hqm2, ← hmn] at h1
      exact le_antisymm h1 (normalize_mn_le c0 s0 rest p hp)
    have hne' : mx ≠ mn := by
      rcases hne with ⟨q, hq, hqne⟩
      intro heq
      apply hqne
      have h1 : q.2 ≤ mx := normalize_le_mx c0 s0 rest q hq
      have h2 : mn ≤ q.2 := normalize_mn_le c0 s0 rest q hq
      rw [heq, ← hpmn] at h1
      rw [← hpmn] at h2
      exact le_antisymm h1 h2
    rw [if_neg hne']
    refine List.mem_map.mpr ⟨p, hp, ?_⟩
    show (p.1, qDiv (qSub p.2 mn) (qSub mx mn)) = (p.1, 0)
    rw [qDiv_eq, qSub_eq, qSub_eq, hpmn, sub_self, zero_div]

theorem normalize_max_to_one {κ : Type} (scored : List (κ × ℚ)) :
    ∀ p ∈ scored, (∀ q ∈ scored, q.2 ≤ p.2) → (∃ q ∈ scored, q.2 ≠ p.2) →
      (p.1, (1 : ℚ)) ∈ normalize_scores scored := by
  match scored with
  | [] => intro p hp; cases hp
  | (c0, s0) :: rest =>
    intro p hp hmax hne
    rw [normalize_scores_cons]
    set mn := (rest.map Prod.snd).foldl qMin s0 with hmn
    set mx := (rest.map Prod.snd).foldl qMax s0 with hmx
    have hpmx : p.2 = mx := by
      rcases normalize_mx_attained c0 s0 rest with ⟨qm, hqm, hqm2⟩
      have h1 := hmax qm hqm
      rw [hqm2, ← hmx] at h1
      exact le_antisymm (normalize_le_mx c0 s0 rest p hp) h1
    have hne' : mx ≠ mn := by
      rcases hne with ⟨q, hq, hqne⟩
      intro heq
      apply hqne
      have h1 : q.2 ≤ mx := normalize_le_mx c0 s0 rest q hq
      have h2 : mn ≤ q.2 := normalize_mn_le c0 s0 rest q hq
      rw [← hpmx] at h1
      rw [← heq, ← hpmx] at h2
      exact le_antisymm h1 h2
    rw [if_neg hne']
    refine List.mem_map.mpr ⟨p, hp, ?_⟩
    show (p.1, qDiv (qSub p.2 mn) (qSub mx mn)) = (p.1, 1)
    rw [qDiv_eq, qSub_eq, qSub_eq, hpmx]
    rw [div_self (sub_ne_zero.mpr hne')]

theorem normalize_const_to_one {κ : Type} (scored : List (κ × ℚ)) (s : ℚ) :
    (∀ q ∈ scored, q.2 = s) → ∀ p ∈ normalize_scores scored, p.2 = 1 := by
  match scored with
  | [] => intro _ p hp; cases hp
  | (c0, s0) :: rest =>
    intro hall p hp
    rw [normalize_scores_cons] at hp
    set mn := (rest.map Prod.snd).foldl qMin s0 with hmn
    set mx := (rest.map Prod.snd).foldl qMax s0 with hmx
    have hmns : mn = s := by
      rcases normalize_mn_attained c0 s0 rest with ⟨qm, hqm, hqm2⟩
      rw [hmn, ← hqm2]; exact hall qm hqm
    have hmxs : mx = s := by
      rcases normalize_mx_attained c0 s0 rest with ⟨qm, hqm, hqm2⟩
      rw [hmx, ← hqm2]; exact hall qm hqm
    rw [if_pos (hmxs.trans hmns.symm)] at hp
    rcases List.mem_map.mp hp with ⟨q, _, rfl⟩
    rfl

/-- C8: min-max normalisation maps every score of a non-empty input into
`[0, 1]`; when max ≠ min the minimum maps to 0 and the maximum to 1; when
min = max every entry maps to exactly 1; the empty input maps to the empty
map. -/
theorem C8_normalize_minmax :
    (normalize_scores ([] : List (Str × ℚ)) = []) ∧
    (∀ (scored : List (Str × ℚ)) (p : Str × ℚ),
      p ∈ normalize_scores scored → 0 ≤ p.2 ∧ p.2 ≤ 1) ∧
    (∀ (scored : List (Str × ℚ)) (p : Str × ℚ), p ∈ scored →
      (∀ q ∈ scored, p.2 ≤ q.2) → (∃ q ∈ scored, q.2 ≠ p.2) →
      (p.1, (0 : ℚ)) ∈ normalize_scores scored) ∧
    (∀ (scored : List (Str × ℚ)) (p : Str × ℚ), p ∈ scored →
      (∀ q ∈ scored, q.2 ≤ p.2) → (∃ q ∈ scored, q.2 ≠ p.2) →
      (p.1, (1 : ℚ)) ∈ normalize_scores scored) ∧
    (∀ (scored : List (Str × ℚ)) (s : ℚ), (∀ q ∈ scored, q.2 = s) →
      ∀ p ∈ normalize_scores scored, p.2 = 1) :=
  ⟨rfl,
   fun scored p hp => normalize_mem_bounds scored p hp,
   fun scored p hp hmin hne => normalize_min_to_zero scored p hp hmin hne,
   fun scored p hp hmax hne => normalize_max_to_one scored p hp hmax hne,
   fun scored s hall p hp => normalize_const_to_one scored s hall p hp⟩

/-- C8 witness: the bounds, the min-to-0 and max-to-1 parts evaluated on the
concrete list `[("a", 2), ("b", 4)]`, and the constant case on
`[("a", 7), ("b", 7)]`. -/
theorem C8_witness :
    ((lit "a", (0 : ℚ)) ∈ normalize_scores [(lit "a", (2 : ℚ)), (lit "b", 4)]) ∧
    ((lit "b", (1 : ℚ)) ∈ normalize_scores [(lit "a", (2 : ℚ)), (lit "b", 4)]) ∧
    (0 ≤ (normalize_scores [(lit "a", (2 : ℚ)), (lit "b", 4)]).headI.2 ∧
      (normalize_scores [(lit "a", (2 : ℚ)), (lit "b", 4)]).headI.2 ≤ 1) ∧
    ((normalize_scores [(lit "a", (7 : ℚ)), (lit "b", 7)]).headI.2 = 1) := by
  refine ⟨?_, ?_, ?_, ?_⟩
  · exact C8_normalize_minmax.2.2.1 [(lit "a", (2 : ℚ)), (lit "b", 4)] (lit "a", 2)
      (by decide) (by decide) ⟨(lit "b", 4), by decide, by decide⟩
  · exact C8_normalize_minmax.2.2.2.1 [(lit "a", (2 : ℚ)), (lit "b", 4)] (lit "b", 4)
      (by decide) (by decide) ⟨(lit "a", 2), by decide, by decide⟩
  · exact C8_normalize_minmax.2.1 [(lit "a", (2 : ℚ)), (lit "b", 4)] _
      (by decide : ((lit "a", (0 : ℚ))) ∈ normalize_scores [(lit "a", (2 : ℚ)), (lit "b", 4)])
  · exact C8_normalize_minmax.2.2.2.2 [(lit "a", (7 : ℚ)), (lit "b", 7)] 7 (by decide) _
      (by decide : ((lit "a", (1 : ℚ))) ∈ normalize_scores [(lit "a", (7 : ℚ)), (lit "b", 7)])

-- ── C9 / C10: the stale-cache sweep ──────────────────────────────────────────

/-- C9 counterexample: `voters.csv` lives in the cache directory (it is the
voter subsystem's `VOTER_CSV_PATH`), its name does not contain
`CACHE_VERSION`, and the sweep leaves it in place — so after a rebuild the
cache directory can still contain a file whose name omits the current
version string, contrary to the claim. -/
theorem C9_counterexample :
    clean_stale_cache [lit "voters.csv"] = [lit "voters.csv"] ∧
    containsSub CACHE_VERSION (lit "voters.csv") = false := by
  exact ⟨by decide, by decide⟩

/-- C9 amended: the sweep removes exactly the `*.json` / `*.npy` files whose
name does not contain `CACHE_VERSION`; a file survives iff it was present
and, when it is a `.json`/`.npy` file, its name contains the version. -/
theorem C9_sweep_amended :
    ∀ (files : List Str) (f : Str),
      f ∈ clean_stale_cache files ↔
        f ∈ files ∧ (isSweptExt f = true → containsSub CACHE_VERSION f = true) := by
  intro files f
  rw [clean_stale_cache, List.mem_filter]
  cases hs : isSweptExt f <;> cases hc : containsSub CACHE_VERSION f <;>
    simp [hs, hc]

/-- C9 witness: a non-swept extension survives without the version; a
version-less `.json` file is deleted. -/
theorem C9_witness :
    (lit "voters.csv") ∈ clean_stale_cache [lit "voters.csv"] ∧
    (lit "stale.json") ∉ clean_stale_cache [lit "stale.json"] := by
  constructor
  · exact (C9_sweep_amended [lit "voters.csv"] (lit "voters.csv")).mpr
      ⟨by decide, fun h => absurd h (by decide)⟩
  · intro hmem
    have h := ((C9_sweep_amended [lit "stale.json"] (lit "stale.json")).mp hmem).2 (by decide)
    exact absurd h (by decide)

/-- C10: every rebuild's sweep deletes `voter-scores.json` (its name ends in
`.json` and never contains `CACHE_VERSION`), destroying the voter-scoring
subsystem's persisted state, while `voters.csv` (not a `.json`/`.npy` glob
match) is left in place whenever present. -/
theorem C10_voter_cache_destroyed :
    ∀ files : List Str,
      (lit "voter-scores.json") ∉ clean_stale_cache files ∧
      ((lit "voters.csv") ∈ files → (lit "voters.csv") ∈ clean_stale_cache files) := by
  intro files
  constructor
  · intro hmem
    rw [clean_stale_cache, List.mem_filter] at hmem
    exact absurd hmem.2 (by decide)
  · intro hin
    rw [clean_stale_cache, List.mem_filter]
    exact ⟨hin, by decide⟩

/-- C10 witness: the sweep applied to a directory holding both voter files. -/
theorem C10_witness :
    (lit "voter-scores.json") ∉
      clean_stale_cache [lit "voter-scores.json", lit "voters.csv"] ∧
    (lit "voters.csv") ∈ clean_stale_cache [lit "voter-scores.json", lit "voters.csv"] :=
  ⟨(C10_voter_cache_destroyed [lit "voter-scores.json", lit "voters.csv"]).1,
   (C10_voter_cache_destroyed [lit "voter-scores.json", lit "voters.csv"]).2 (by decide)⟩

-- ── C2 / C3: ingestion ───────────────────────────────────────────────────────

/-- C2 (code bug): the chunk-id counter of `chunk_pages` is a local variable
that restarts at 0 for every document, so ingesting two one-page documents
yields two chunks both tagged `chunk-0` — chunk ids are NOT globally unique
across documents, contradicting the spec's `chunk_id (globally unique
sequential tag)` and breaking the id-keyed dicts of the retriever. -/
theorem C2_duplicate_chunk_ids :
    ingest_all_docs [Except.ok [samplePageA], Except.ok [samplePageB]] =
      Except.ok (chunk_pages [samplePageA] ++ chunk_pages [samplePageB]) ∧
    (chunk_pages [samplePageA] ++ chunk_pages [samplePageB]).map Chunk.id =
      [lit "chunk-0", lit "chunk-0"] ∧
    ¬ ((chunk_pages [samplePageA] ++ chunk_pages [samplePageB]).map Chunk.id).Nodup := by
  exact ⟨rfl, by decide, by decide⟩

/-- C3 counterexample: when the first document fails, the whole rebuild
returns the error — it does not skip the document and complete with the
chunks of the remaining ones. -/
theorem C3_counterexample :
    ingest_all_docs [Except.error (), Except.ok [samplePageA]] = Except.error () ∧
    chunk_pages [samplePageA] ≠ [] ∧
    ingest_all_docs [Except.error (), Except.ok [samplePageA]] ≠
      Except.ok (chunk_pages [samplePageA]) := by
  refine ⟨rfl, by decide, fun h => Except.noConfusion h⟩

/-- C3 amended: a per-document ingestion failure propagates — if any document
in the rebuild fails, `ingest_all_docs` aborts with that error and publishes
no chunk list. -/
theorem C3_failure_aborts_rebuild :
    ∀ docs : List (Except Unit (List Page)),
      Except.error () ∈ docs → ingest_all_docs docs = Except.error () := by
  intro docs
  induction docs with
  | nil => intro h; cases h
  | cons d rest ih =>
    intro h
    rcases List.mem_cons.mp h with rfl | hm
    · rfl
    · cases d with
      | error e => rfl
      | ok pages =>
        rw [ingest_all_docs, ih hm]

/-- C3 witness: the amended statement applied to a concrete two-document
directory whose first document fails. -/
theorem C3_witness :
    ingest_all_docs [Except.error (), Except.ok [samplePageA]] = Except.error () :=
  C3_failure_aborts_rebuild [Except.error (), Except.ok [samplePageA]]
    (List.mem_cons_self _ _)

-- ── C7: the chunker ──────────────────────────────────────────────────────────

theorem windowsGo_head (words : List Str) :
    ∀ (fuel start : Nat) (x : Nat × List Str) (l : List (Nat × List Str)),
      windowsGo words fuel start = x :: l → x.1 = start := by
  intro fuel
  cases fuel with
  | zero =>
    intro start x l h
    exact List.noConfusion h
  | succ fuel =>
    intro start x l h
    rw [windowsGo] at h
    by_cases hs : start < words.length
    · rw [if_pos hs] at h
      by_cases hl : ((words.drop start).take CHUNK_SIZE).length < 15
      · rw [if_pos hl] at h
        exact List.noConfusion h
      · rw [if_neg hl] at h
        injection h with h1 h2
        rw [← h1]
    · rw [if_neg hs] at h
      exact List.noConfusion h

theorem windowsGo_chain (words : List Str) :
    ∀ (fuel start : Nat),
      List.Chain' (fun a b : Nat × List Str => b.1 = a.1 + chunkStep)
        (windowsGo words fuel start) := by
  intro fuel
  induction fuel with
  | zero => intro start; rw [windowsGo]; exact List.chain'_nil
  | succ fuel ih =>
    intro start
    rw [windowsGo]
    by_cases hs : start < words.length
    · rw [if_pos hs]
      by_cases hl : ((words.drop start).take CHUNK_SIZE).length < 15
      · rw [if_pos hl]; exact List.chain'_nil
      · rw [if_neg hl]
        rw [List.chain'_cons']
        refine ⟨?_, ih (start + chunkStep)⟩
        intro y hy
        cases hrec : windowsGo words fuel (start + chunkStep) with
        | nil => rw [hrec] at hy; cases hy
        | cons z zs =>
          rw [hrec] at hy
          have hzy : z = y := by
            simpa using hy
          have hz := windowsGo_head words fuel (start + chunkStep) z zs hrec
          rw [← hzy]
          exact hz
    · rw [if_neg hs]; exact List.chain'_nil

theorem windowsGo_mem (words : List Str) :
    ∀ (fuel start : Nat) (w : Nat × List Str), w ∈ windowsGo words fuel start →
      15 ≤ w.2.length ∧ w.2.length ≤ CHUNK_SIZE := by
  intro fuel
  induction fuel with
  | zero =>
    intro start w hw
    rw [windowsGo] at hw
    cases hw
  | succ fuel ih =>
    intro start w hw
    rw [windowsGo] at hw
    by_cases hs : start < words.length
    · rw [if_pos hs] at hw
      by_cases hl : ((words.drop start).take CHUNK_SIZE).length < 15
      · rw [if_pos hl] at hw; cases hw
      · rw [if_neg hl] at hw
        rcases List.mem_cons.mp hw with rfl | hw
        · refine ⟨not_lt.mp hl, ?_⟩
          rw [List.length_take]
          exact min_le_left _ _
        · exact ih _ w hw
    · rw [if_neg hs] at hw; cases hw

theorem mem_enumFrom_snd {α : Type} :
    ∀ (l : List α) (n : Nat) (pr : Nat × α), pr ∈ l.enumFrom n → pr.2 ∈ l := by
  intro l
  induction l with
  | nil => intro n pr h; cases h
  | cons a t ih =>
    intro n pr h
    rw [List.enumFrom] at h
    rcases List.mem_cons.mp h with rfl | h
    · exact List.mem_cons_self _ _
    · exact List.mem_cons_of_mem _ (ih _ _ h)

theorem chunkPagesGo_mem :
    ∀ (pages : List Page) (counter : Nat) (c : Chunk), c ∈ chunkPagesGo counter pages →
      ∃ p ∈ pages, ∃ w ∈ pageWindows p,
        c.raw_content = joinWords w.2 ∧ c.page = p.page_num := by
  intro pages
  induction pages with
  | nil => intro counter c h; cases h
  | cons p rest ih =>
    intro counter c h
    rw [chunkPagesGo] at h
    rcases List.mem_append.mp h with h | h
    · rcases List.mem_map.mp h with ⟨pr, hpr, rfl⟩
      exact ⟨p, List.mem_cons_self _ _, pr.2,
        mem_enumFrom_snd (pageWindows p) 0 pr hpr, rfl, rfl⟩
    · rcases ih _ c h with ⟨p', hp', w, hw, he⟩
      exact ⟨p', List.mem_cons_of_mem _ hp', w, hw, he⟩

/-- C7: the chunker's windows inside one page start at positions that differ
by exactly the stride `chunkStep = max(1, 280−60) = 220`; every emitted
window holds between 15 and `CHUNK_SIZE = 280` words; a page with fewer than
`MIN_CHUNK_WORDS = 40` words emits no windows at all; and every chunk built
by `chunk_pages` is the word-join of such a window of exactly one of its
pages (so chunks never cross page boundaries). -/
theorem C7_chunk_windows :
    chunkStep = 220 ∧
    (∀ words : List Str,
      List.Chain' (fun a b : Nat × List Str => b.1 = a.1 + chunkStep) (windows words)) ∧
    (∀ (words : List Str) (w : Nat × List Str), w ∈ windows words →
      15 ≤ w.2.length ∧ w.2.length ≤ CHUNK_SIZE) ∧
    (∀ p : Page, (splitWs p.text).length < MIN_CHUNK_WORDS → pageWindows p = []) ∧
    (∀ (pages : List Page) (c : Chunk), c ∈ chunk_pages pages →
      ∃ p ∈ pages, ∃ w ∈ pageWindows p,
        c.raw_content = joinWords w.2 ∧ c.page = p.page_num) := by
  refine ⟨rfl, fun words => windowsGo_chain words _ _,
    fun words w hw => windowsGo_mem words _ _ w hw, ?_, ?_⟩
  · intro p hp
    rw [pageWindows, if_pos hp]
  · intro pages c hc
    exact chunkPagesGo_mem pages 0 c hc

/-- C7 witness: the window-size bounds evaluated on a concrete 40-word page,
and the empty output on a concrete page with fewer than 40 words. -/
theorem C7_witness :
    (15 ≤ (List.replicate 40 (lit "alpha")).length ∧
      (List.replicate 40 (lit "alpha")).length ≤ CHUNK_SIZE) ∧
    pageWindows shortPage = [] := by
  constructor
  · exact C7_chunk_windows.2.2.1 (List.replicate 40 (lit "alpha"))
      (0, List.replicate 40 (lit "alpha")) (by decide)
  · exact C7_chunk_windows.2.2.2.1 shortPage (by decide)

-- ── C4: the broad time boost ─────────────────────────────────────────────────

/-- C4 amended: the +0.05 broad time boost is applied exactly when the
chunk's raw content matches TIME_PATTERN, regardless of whether the query
contains a time expression (main.py 804-806 tests only the chunk). -/
theorem C4_time_boost_unconditional :
    ∀ (query : Str) (c : Chunk),
      (timeSearch c.raw_content = true →
        score_adjustment query c =
          qAdd (score_adjustment_no_time_boost query c) (mkRat 1 20)) ∧
      (timeSearch c.raw_content = false →
        score_adjustment query c = score_adjustment_no_time_boost query c) := by
  intro query c
  constructor
  · intro ht
    simp only [score_adjustment, score_adjustment_no_time_boost, ht, if_true]
    simp only [qAdd_eq, qSub_eq]
    split_ifs <;> ring
  · intro ht
    simp only [score_adjustment, score_adjustment_no_time_boost, ht, Bool.false_eq_true,
      if_false]

/-- C4 counterexample: the query `when do polls open` contains no time
expression, yet the chunk containing `6:00 AM` still receives the +0.05
boost: its adjustment is 1/20 where every other adjustment term is 0. -/
theorem C4_counterexample :
    timeFindall (lit "when do polls open") = [] ∧
    timeSearch timeChunk.raw_content = true ∧
    score_adjustment (lit "when do polls open") timeChunk = mkRat 1 20 ∧
    score_adjustment_no_time_boost (lit "when do polls open") timeChunk = 0 := by
  exact ⟨by decide, by decide, by decide, by decide⟩

/-- C4 witness: the amended statement applied to a concrete time-free query
and a concrete time-bearing chunk. -/
theorem C4_witness :
    score_adjustment (lit "polls") timeChunk =
      qAdd (score_adjustment_no_time_boost (lit "polls") timeChunk) (mkRat 1 20) :=
  (C4_time_boost_unconditional (lit "polls") timeChunk).1 (by decide)

-- ── C1: result count and id distinctness of `hybrid_search` ──────────────────

theorem nodup_append_singleton {α : Type} (l : List α) (x : α) :
    l.Nodup → x ∉ l → (l ++ [x]).Nodup := by
  intro h hx
  rw [List.nodup_append]
  refine ⟨h, List.nodup_singleton x, ?_⟩
  intro a ha hax
  rw [List.mem_singleton] at hax
  subst hax
  exact hx ha

theorem lookupLast_map_id (l : List Chunk) :
    ∀ (k : Str) (c : Chunk), lookupLast (id_to_chunk l) k = some c → c.id = k := by
  induction l with
  | nil =>
    intro k c h
    exact Option.noConfusion h
  | cons a rest ih =>
    intro k c h
    rw [id_to_chunk, List.map_cons] at h
    rw [lookupLast] at h
    cases hrec : lookupLast (List.map (fun c => (c.id, c)) rest) k with
    | some v =>
      simp only [hrec] at h
      injection h with h1
      subst h1
      exact ih k v (by rw [id_to_chunk]; exact hrec)
    | none =>
      simp only [hrec] at h
      by_cases hk : a.id = k
      · rw [if_pos hk] at h
        injection h with h1
        rw [← h1]
        exact hk
      · rw [if_neg hk] at h
        exact Option.noConfusion h

theorem primaryFill_length (idc : List (Str × Chunk)) (fused : List (Str × ℚ))
    (top_k : Nat) :
    ∀ (l : List Str) (acc : List SearchResult),
      (acc = [] ∨ ((acc.length : ℤ) + 1 ≤ (top_k : ℤ) - 5)) →
      ((primaryFill idc fused top_k l acc).length : ℤ) ≤ max 1 ((top_k : ℤ) - 5) := by
  intro l
  induction l with
  | nil =>
    intro acc hacc
    rw [primaryFill]
    rcases hacc with rfl | h
    · simp
    · simp only [le_max_iff]
      right
      omega
  | cons cid rest ih =>
    intro acc hacc
    rw [primaryFill]
    cases hl : lookupLast idc cid with
    | none =>
      simp only [hl]
      exact ih acc hacc
    | some c =>
      simp only [hl]
      by_cases hbr : (top_k : ℤ) - 5 ≤ ((acc.length : ℤ) + 1)
      · rw [if_pos hbr]
        rw [List.length_append]
        simp only [le_max_iff, List.length_singleton]
        rcases hacc with rfl | h
        · simp
        · right
          push_cast
          omega
      · rw [if_neg hbr]
        apply ih
        right
        rw [List.length_append]
        simp only [List.length_singleton]
        push_cast
        omega

theorem primaryFill_nodup (idc : List (Str × Chunk)) (fused : List (Str × ℚ))
    (top_k : Nat) (hidc : ∀ k c, lookupLast idc k = some c → c.id = k) :
    ∀ (l : List Str) (acc : List SearchResult), l.Nodup →
      (∀ cid ∈ l, cid ∉ acc.map SearchResult.chunk_id) →
      (acc.map SearchResult.chunk_id).Nodup →
      ((primaryFill idc fused top_k l acc).map SearchResult.chunk_id).Nodup := by
  intro l
  induction l with
  | nil =>
    intro acc _ _ hacc
    rw [primaryFill]
    exact hacc
  | cons cid rest ih =>
    intro acc hnd hdis hacc
    rw [primaryFill]
    cases hl : lookupLast idc cid with
    | none =>
      simp only [hl]
      exact ih acc (List.Nodup.of_cons hnd)
        (fun x hx => hdis x (List.mem_cons_of_mem _ hx)) hacc
    | some c =>
      simp only [hl]
      have hcid : c.id = cid := hidc cid c hl
      have hnotin : cid ∉ acc.map SearchResult.chunk_id :=
        hdis cid (List.mem_cons_self _ _)
      have hacc' : ((acc ++ [mkResult c (fusedGet fused cid)]).map
          SearchResult.chunk_id).Nodup := by
        rw [List.map_append]
        refine nodup_append_singleton _ _ hacc ?_
        show c.id ∉ acc.map SearchResult.chunk_id
        rw [hcid]
        exact hnotin
      by_cases hbr : (top_k : ℤ) - 5 ≤ ((acc.length : ℤ) + 1)
      · rw [if_pos hbr]
        exact hacc'
      · rw [if_neg hbr]
        apply ih _ (List.Nodup.of_cons hnd) _ hacc'
        intro x hx
        rw [List.map_append, List.mem_append]
        rintro (h | h)
        · exact hdis x (List.mem_cons_of_mem _ hx) h
        · simp only [List.map_cons, List.map_nil, List.mem_singleton] at h
          rw [h] at hx
          have : c.id ∈ rest := hx
          rw [hcid] at this
          exact (List.nodup_cons.mp hnd).1 this

theorem fusedList_keys (chunks : List Chunk) (bm25Raw : List (Str × ℚ))
    (qsim : Chunk → ℚ) (query : Str) :
    (fusedList chunks bm25Raw qsim query).map Prod.fst =
      dedupFirst ((normalize_scores (bm25Scored chunks bm25Raw)).map Prod.fst
        ++ (normalize_scores (cosineScored chunks qsim)).map Prod.fst) := by
  rw [fusedList]
  rw [List.map_map]
  exact List.map_id _

theorem sortedIds_nodup (chunks : List Chunk) (bm25Raw : List (Str × ℚ))
    (qsim : Chunk → ℚ) (query : Str) :
    (sortedIds (fusedList chunks bm25Raw qsim query)).Nodup := by
  rw [sortedIds]
  have hperm := List.perm_insertionSort
    (fun a b => fusedGet (fusedList chunks bm25Raw qsim query) b ≤
      fusedGet (fusedList chunks bm25Raw qsim query) a)
    ((fusedList chunks bm25Raw qsim query).map Prod.fst)
  rw [List.Perm.nodup_iff hperm, fusedList_keys]
  exact dedupFirst_nodup _

theorem rescueLoop_length (accept : Chunk → Bool) (k : Nat) :
    ∀ (l rescued : List Chunk) (rids : List Str), rescued.length < k →
      (rescueLoop accept k l rescued rids).length ≤ k := by
  intro l
  induction l with
  | nil =>
    intro rescued rids h
    rw [rescueLoop]
    omega
  | cons c rest ih =>
    intro rescued rids h
    rw [rescueLoop]
    by_cases hin : c.id ∈ rids
    · rw [if_pos hin]
      exact ih _ _ h
    · rw [if_neg hin]
      by_cases hacc : accept c = true
      · rw [if_pos hacc]
        by_cases hbr : k ≤ rescued.length + 1
        · rw [if_pos hbr]
          rw [List.length_append, List.length_singleton]
          omega
        · rw [if_neg hbr]
          apply ih
          rw [List.length_append, List.length_singleton]
          omega
      · rw [if_neg hacc]
        by_cases hbr : k ≤ rescued.length
        · rw [if_pos hbr]
          omega
        · rw [if_neg hbr]
          exact ih _ _ h

theorem rescueLoop_ids (accept : Chunk → Bool) (k : Nat) :
    ∀ (l rescued : List Chunk) (rids : List Str),
      ((rescued.map Chunk.id).Nodup) →
      (∀ x ∈ rescued.map Chunk.id, x ∈ rids) →
      ((rescueLoop accept k l rescued rids).map Chunk.id).Nodup ∧
      (∀ x ∈ (rescueLoop accept k l rescued rids).map Chunk.id,
        x ∈ rids ∨ x ∈ l.map Chunk.id) := by
  intro l
  induction l with
  | nil =>
    intro rescued rids hnd hsub
    rw [rescueLoop]
    exact ⟨hnd, fun x hx => Or.inl (hsub x hx)⟩
  | cons c rest ih =>
    intro rescued rids hnd hsub
    rw [rescueLoop]
    by_cases hin : c.id ∈ rids
    · rw [if_pos hin]
      rcases ih rescued rids hnd hsub with ⟨h1, h2⟩
      refine ⟨h1, fun x hx => ?_⟩
      rcases h2 x hx with h | h
      · exact Or.inl h
      · exact Or.inr (by rw [List.map_cons]; exact List.mem_cons_of_mem _ h)
    · rw [if_neg hin]
      by_cases hacc : accept c = true
      · rw [if_pos hacc]
        have hcid : c.id ∉ rescued.map Chunk.id := fun hx => hin (hsub _ hx)
        have hnd' : ((rescued ++ [c]).map Chunk.id).Nodup := by
          rw [List.map_append]
          exact nodup_append_singleton _ _ hnd hcid
        by_cases hbr : k ≤ rescued.length + 1
        · rw [if_pos hbr]
          refine ⟨hnd', fun x hx => ?_⟩
          rw [List.map_append, List.mem_append] at hx
          rcases hx with h | h
          · exact Or.inl (hsub x h)
          · simp only [List.map_cons, List.map_nil, List.mem_singleton] at h
            subst h
            exact Or.inr (by rw [List.map_cons]; exact List.mem_cons_self _ _)
        · rw [if_neg hbr]
          have hsub' : ∀ x ∈ (rescued ++ [c]).map Chunk.id, x ∈ c.id :: rids := by
            intro x hx
            rw [List.map_append, List.mem_append] at hx
            rcases hx with h | h
            · exact List.mem_cons_of_mem _ (hsub x h)
            · simp only [List.map_cons, List.map_nil, List.mem_singleton] at h
              subst h
              exact List.mem_cons_self _ _
          rcases ih (rescued ++ [c]) (c.id :: rids) hnd' hsub' with ⟨h1, h2⟩
          refine ⟨h1, fun x hx => ?_⟩
          rcases h2 x hx with h | h
          · rcases List.mem_cons.mp h with rfl | h
            · exact Or.inr (by rw [List.map_cons]; exact List.mem_cons_self _ _)
            · exact Or.inl h
          · exact Or.inr (by rw [List.map_cons]; exact List.mem_cons_of_mem _ h)
      · rw [if_neg hacc]
        by_cases hbr : k ≤ rescued.length
        · rw [if_pos hbr]
          exact ⟨hnd, fun x hx => Or.inl (hsub x hx)⟩
        · rw [if_neg hbr]
          rcases ih rescued rids hnd hsub with ⟨h1, h2⟩
          refine ⟨h1, fun x hx => ?_⟩
          rcases h2 x hx with h | h
          · exact Or.inl h
          · exact Or.inr (by rw [List.map_cons]; exact List.mem_cons_of_mem _ h)

theorem keyword_rescue_ids (query : Str) (chunks : List Chunk)
    (fused : List (Str × ℚ)) (already : List Str) (k : Nat) :
    ((keyword_rescue query chunks fused already k).map Chunk.id).Nodup ∧
    (∀ x ∈ (keyword_rescue query chunks fused already k).map Chunk.id,
      x ∉ already) := by
  have key := rescueLoop_ids (acceptChunk query) k
    (List.insertionSort (fun a b => fusedGet fused b.id ≤ fusedGet fused a.id)
      (chunks.filter (fun c => !(already.contains c.id)))) [] []
    (by simp) (by simp)
  refine ⟨key.1, fun x hx hmem => ?_⟩
  rcases key.2 x hx with h | h
  · cases h
  · rcases List.mem_map.mp h with ⟨c, hc, rfl⟩
    have hcand : c ∈ chunks.filter (fun c => !(already.contains c.id)) :=
      (List.Perm.mem_iff (List.perm_insertionSort _ _)).mp hc
    have hf := List.of_mem_filter hcand
    simp only [Bool.not_eq_true'] at hf
    have htrue : already.contains c.id = true := List.elem_eq_true_of_mem hmem
    rw [hf] at htrue
    exact Bool.noConfusion htrue

theorem rescueFill_length (fused : List (Str × ℚ)) (top_k : Nat) :
    ∀ (l : List Chunk) (acc : List SearchResult),
      (rescueFill fused top_k l acc).length ≤ max (acc.length + 1) top_k := by
  intro l
  induction l with
  | nil =>
    intro acc
    rw [rescueFill]
    omega
  | cons c rest ih =>
    intro acc
    rw [rescueFill]
    by_cases hbr : top_k ≤ acc.length + 1
    · rw [if_pos hbr]
      rw [List.length_append, List.length_singleton]
      omega
    · rw [if_neg hbr]
      have := ih (acc ++ [mkResult c (fusedGet fused c.id)])
      rw [List.length_append, List.length_singleton] at this
      omega

theorem rescueFill_nodup (fused : List (Str × ℚ)) (top_k : Nat) :
    ∀ (l : List Chunk) (acc : List SearchResult),
      (acc.map SearchResult.chunk_id).Nodup →
      ((l.map Chunk.id).Nodup) →
      (∀ x ∈ l.map Chunk.id, x ∉ acc.map SearchResult.chunk_id) →
      ((rescueFill fused top_k l acc).map SearchResult.chunk_id).Nodup := by
  intro l
  induction l with
  | nil =>
    intro acc hacc _ _
    rw [rescueFill]
    exact hacc
  | cons c rest ih =>
    intro acc hacc hnd hdis
    rw [rescueFill]
    have hacc' : ((acc ++ [mkResult c (fusedGet fused c.id)]).map
        SearchResult.chunk_id).Nodup := by
      rw [List.map_append]
      refine nodup_append_singleton _ _ hacc ?_
      exact hdis c.id (by rw [List.map_cons]; exact List.mem_cons_self _ _)
    by_cases hbr : top_k ≤ acc.length + 1
    · rw [if_pos hbr]
      exact hacc'
    · rw [if_neg hbr]
      apply ih _ hacc' (by rw [List.map_cons] at hnd; exact (List.nodup_cons.mp hnd).2)
      intro x hx
      rw [List.map_append, List.mem_append]
      rintro (h | h)
      · exact hdis x (by rw [List.map_cons]; exact List.mem_cons_of_mem _ hx) h
      · simp only [List.map_cons, List.map_nil, List.mem_singleton] at h
        subst h
        rw [List.map_cons] at hnd
        have hx' : c.id ∈ rest.map Chunk.id := hx
        exact (List.nodup_cons.mp hnd).1 hx'

theorem maxByFused_mem (fused : List (Str × ℚ)) :
    ∀ (l : List Chunk) (c : Chunk), maxByFused fused l = some c → c ∈ l := by
  intro l
  cases l with
  | nil =>
    intro c h
    exact Option.noConfusion h
  | cons a rest =>
    intro c h
    rw [maxByFused] at h
    injection h with h1
    have key : ∀ (rest : List Chunk) (a : Chunk),
        rest.foldl (fun best x =>
          if fusedGet fused best.id < fusedGet fused x.id then x else best) a
          ∈ a :: rest := by
      intro rest
      induction rest with
      | nil => intro a; exact List.mem_cons_self _ _
      | cons y ys ih =>
        intro a
        rw [List.foldl_cons]
        rcases List.mem_cons.mp
            (ih (if fusedGet fused a.id < fusedGet fused y.id then y else a)) with h | h
        · rw [h]
          by_cases hc : fusedGet fused a.id < fusedGet fused y.id
          · rw [if_pos hc]
            exact List.mem_cons_of_mem _ (List.mem_cons_self _ _)
          · rw [if_neg hc]
            exact List.mem_cons_self _ _
        · exact List.mem_cons_of_mem _ (List.mem_cons_of_mem _ h)
    rw [← h1]
    exact key rest a

theorem pageFillGo_length (chunks : List Chunk) (fused : List (Str × ℚ))
    (pa : List Nat) :
    ∀ (prs : List PageResult) (results : List SearchResult),
      (pageFillGo chunks fused pa prs results).length ≤ results.length + prs.length := by
  intro prs
  induction prs with
  | nil =>
    intro results
    rw [pageFillGo]
    omega
  | cons pr rest ih =>
    intro results
    rw [pageFillGo]
    by_cases hp : pr.page_num ∈ pa
    · rw [if_pos hp]
      have := ih results
      rw [List.length_cons]
      omega
    · rw [if_neg hp]
      cases hmax : maxByFused fused (chunks.filter (fun c =>
          c.page == pr.page_num && c.doc_id == pr.doc_id
            && !((results.map SearchResult.chunk_id).contains c.id))) with
      | none =>
        simp only [hmax]
        have := ih results
        rw [List.length_cons]
        omega
      | some best =>
        simp only [hmax]
        have := ih (results ++ [mkResult best (fusedGet fused best.id)])
        rw [List.length_append, List.length_singleton] at this
        rw [List.length_cons]
        omega

theorem pageFillGo_nodup (chunks : List Chunk) (fused : List (Str × ℚ))
    (pa : List Nat) :
    ∀ (prs : List PageResult) (results : List SearchResult),
      (results.map SearchResult.chunk_id).Nodup →
      ((pageFillGo chunks fused pa prs results).map SearchResult.chunk_id).Nodup := by
  intro prs
  induction prs with
  | nil =>
    intro results h
    rw [pageFillGo]
    exact h
  | cons pr rest ih =>
    intro results h
    rw [pageFillGo]
    by_cases hp : pr.page_num ∈ pa
    · rw [if_pos hp]
      exact ih results h
    · rw [if_neg hp]
      cases hmax : maxByFused fused (chunks.filter (fun c =>
          c.page == pr.page_num && c.doc_id == pr.doc_id
            && !((results.map SearchResult.chunk_id).contains c.id))) with
      | none =>
        simp only [hmax]
        exact ih results h
      | some best =>
        simp only [hmax]
        apply ih
        rw [List.map_append]
        refine nodup_append_singleton _ _ h ?_
        have hbmem := maxByFused_mem fused _ best hmax
        have hf := List.of_mem_filter hbmem
        simp only [Bool.and_eq_true, Bool.not_eq_true'] at hf
        intro hmem
        have htrue : (results.map SearchResult.chunk_id).contains best.id = true :=
          List.elem_eq_true_of_mem hmem
        rw [hf.2] at htrue
        exact Bool.noConfusion htrue

theorem page_level_search_length (pages : List Page) (pageBm25Raw : List (Str × ℚ))
    (psim : Page → ℚ) (k : Nat) :
    (page_level_search pages pageBm25Raw psim k).length ≤ k := by
  rw [page_level_search]
  by_cases h : pages.isEmpty
  · rw [if_pos h]
    simp
  · rw [if_neg h]
    refine le_trans (List.length_filterMap_le _ _) ?_
    rw [List.length_take]
    exact min_le_left _ _

theorem hybridPrimary_length (chunks : List Chunk) (bm25Raw : List (Str × ℚ))
    (qsim : Chunk → ℚ) (query : Str) (top_k : Nat) :
    ((hybridPrimary chunks bm25Raw qsim query top_k).length : ℤ) ≤
      max 1 ((top_k : ℤ) - 5) := by
  rw [hybridPrimary]
  exact primaryFill_length _ _ _ _ [] (Or.inl rfl)

theorem hybridPrimary_nodup (chunks : List Chunk) (bm25Raw : List (Str × ℚ))
    (qsim : Chunk → ℚ) (query : Str) (top_k : Nat) :
    ((hybridPrimary chunks bm25Raw qsim query top_k).map SearchResult.chunk_id).Nodup := by
  rw [hybridPrimary]
  apply primaryFill_nodup _ _ _ (lookupLast_map_id chunks) _ []
    (by rw [hybridFused]; exact sortedIds_nodup chunks bm25Raw qsim query)
    (by intro cid _ hx; cases hx)
  exact List.nodup_nil

theorem hybridRescued_length (chunks : List Chunk) (bm25Raw : List (Str × ℚ))
    (qsim : Chunk → ℚ) (query : Str) (top_k : Nat) (htk : 1 ≤ top_k) :
    (hybridRescued chunks bm25Raw qsim query top_k).length ≤ max top_k 2 := by
  rw [hybridRescued]
  have h1 := hybridPrimary_length chunks bm25Raw qsim query top_k
  have h2 := rescueFill_length (hybridFused chunks bm25Raw qsim query) top_k
    (keyword_rescue query chunks (hybridFused chunks bm25Raw qsim query)
      ((hybridPrimary chunks bm25Raw qsim query top_k).map SearchResult.chunk_id) 5)
    (hybridPrimary chunks bm25Raw qsim query top_k)
  omega

theorem hybridRescued_nodup (chunks : List Chunk) (bm25Raw : List (Str × ℚ))
    (qsim : Chunk → ℚ) (query : Str) (top_k : Nat) :
    ((hybridRescued chunks bm25Raw qsim query top_k).map SearchResult.chunk_id).Nodup := by
  rw [hybridRescued]
  rcases keyword_rescue_ids query chunks (hybridFused chunks bm25Raw qsim query)
    ((hybridPrimary chunks bm25Raw qsim query top_k).map SearchResult.chunk_id) 5 with
    ⟨hknd, hkdis⟩
  exact rescueFill_nodup _ _ _ _
    (hybridPrimary_nodup chunks bm25Raw qsim query top_k) hknd hkdis

/-- C1 amended: for every snapshot and every `top_k ≥ 1`, `hybrid_search`
returns at most `max(top_k, 2) + 3` results (at most `top_k` from primary
fill and keyword rescue when `top_k ≥ 2`, one extra rescued slot when
`top_k = 1`, plus up to 3 page-rescue injections, which are not bounded by
`top_k`), and the returned results are always pairwise distinct by
`chunk_id`. -/
theorem C1_retrieve_bound :
    ∀ (chunks : List Chunk) (bm25Raw : List (Str × ℚ)) (qsim : Chunk → ℚ)
      (pages : List Page) (pageBm25Raw : List (Str × ℚ)) (psim : Page → ℚ)
      (query : Str) (top_k : Nat), 1 ≤ top_k →
      (hybrid_search chunks bm25Raw qsim pages pageBm25Raw psim query top_k).length ≤
        max top_k 2 + 3 ∧
      ((hybrid_search chunks bm25Raw qsim pages pageBm25Raw psim query
        top_k).map SearchResult.chunk_id).Nodup := by
  intro chunks bm25Raw qsim pages pageBm25Raw psim query top_k htk
  rw [hybrid_search]
  by_cases hch : chunks.isEmpty
  · rw [if_pos hch]
    exact ⟨by simp, List.nodup_nil⟩
  · rw [if_neg hch]
    have hblen := hybridRescued_length chunks bm25Raw qsim query top_k htk
    have hbnd := hybridRescued_nodup chunks bm25Raw qsim query top_k
    by_cases htr : hybridRescued chunks bm25Raw qsim query top_k ≠ [] ∧
        (hybridRescued chunks bm25Raw qsim query top_k).headI.score < mkRat 3 5 ∧
        pages ≠ []
    · rw [if_pos htr]
      constructor
      · have hfl := pageFillGo_length chunks (hybridFused chunks bm25Raw qsim query)
          ((hybridRescued chunks bm25Raw qsim query top_k).map SearchResult.page_number)
          (page_level_search pages pageBm25Raw psim 3)
          (hybridRescued chunks bm25Raw qsim query top_k)
        have hpl := page_level_search_length pages pageBm25Raw psim 3
        omega
      · exact pageFillGo_nodup _ _ _ _ _ hbnd
    · rw [if_neg htr]
      exact ⟨by omega, hbnd⟩

/-- C1 counterexample: with `top_k = 1`, the keyword-rescue append runs
before the length check, so a two-chunk snapshot returns 2 results — the
claim's `≤ top_k` bound is violated. -/
theorem C1_counterexample :
    (hybrid_search twoChunks [] (fun _ => 0) [] [] (fun _ => 0)
      (lit "ballot box location") 1).length = 2 ∧
    ¬ ((hybrid_search twoChunks [] (fun _ => 0) [] [] (fun _ => 0)
      (lit "ballot box location") 1).length ≤ 1) := by
  exact ⟨by decide, by decide⟩

/-- C1 witness: the amended bound and distinctness evaluated on the concrete
two-chunk snapshot with `top_k = 1`. -/
theorem C1_witness :
    (hybrid_search twoChunks [] (fun _ => 0) [] [] (fun _ => 0)
      (lit "ballot box location") 1).length ≤ max 1 2 + 3 ∧
    ((hybrid_search twoChunks [] (fun _ => 0) [] [] (fun _ => 0)
      (lit "ballot box location") 1).map SearchResult.chunk_id).Nodup :=
  C1_retrieve_bound twoChunks [] (fun _ => 0) [] [] (fun _ => 0)
    (lit "ballot box location") 1 (by decide)

-- ── C6: the keyword-rescue pass ──────────────────────────────────────────────

theorem acceptChunk_eq_spec (query : Str) (c : Chunk) :
    acceptChunk query c = acceptSpec query c := by
  simp only [acceptChunk, acceptSpec, specificTerms, List.countP_eq_length_filter]

theorem dedupById_sublist : ∀ (l : List Chunk) (seen : List Str),
    (dedupById seen l).Sublist l := by
  intro l
  induction l with
  | nil =>
    intro seen
    rw [dedupById]
  | cons c rest ih =>
    intro seen
    rw [dedupById]
    by_cases h : c.id ∈ seen
    · rw [if_pos h]
      exact List.Sublist.cons _ (ih seen)
    · rw [if_neg h]
      exact List.Sublist.cons₂ _ (ih (c.id :: seen))

theorem rescueLoop_eq_take (accept : Chunk → Bool) (k : Nat) :
    ∀ (l rescued : List Chunk) (rids : List Str),
      rescued.length < k →
      (∀ x : Str, x ∈ rids ↔ x ∈ rescued.map Chunk.id) →
      rescueLoop accept k l rescued rids =
        rescued ++ (dedupById rids (l.filter accept)).take (k - rescued.length) := by
  intro l
  induction l with
  | nil =>
    intro rescued rids hlen hinv
    rw [rescueLoop, List.filter_nil, dedupById, List.take_nil, List.append_nil]
  | cons c rest ih =>
    intro rescued rids hlen hinv
    rw [rescueLoop]
    by_cases hin : c.id ∈ rids
    · rw [if_pos hin]
      rw [ih rescued rids hlen hinv]
      by_cases hacc : accept c = true
      · rw [List.filter_cons_of_pos hacc, dedupById, if_pos hin]
      · rw [List.filter_cons_of_neg hacc]
    · rw [if_neg hin]
      by_cases hacc : accept c = true
      · rw [if_pos hacc]
        rw [List.filter_cons_of_pos hacc, dedupById, if_neg hin]
        by_cases hbr : k ≤ rescued.length + 1
        · rw [if_pos hbr]
          have hk : k - rescued.length = 1 := by omega
          rw [hk]
          rw [show (1 : Nat) = 0 + 1 from rfl, List.take_succ_cons, List.take_zero]
        · rw [if_neg hbr]
          rw [ih (rescued ++ [c]) (c.id :: rids)
            (by rw [List.length_append, List.length_singleton]; omega) ?_]
          · rw [List.length_append, List.length_singleton]
            have hk : k - rescued.length = (k - (rescued.length + 1)) + 1 := by omega
            rw [hk, List.take_succ_cons, List.append_assoc]
            rfl
          · intro x
            rw [List.map_append, List.mem_append]
            constructor
            · intro hx
              rcases List.mem_cons.mp hx with rfl | hx
              · right
                simp
              · left
                exact (hinv x).mp hx
            · rintro (hx | hx)
              · exact List.mem_cons_of_mem _ ((hinv x).mpr hx)
              · simp only [List.map_cons, List.map_nil, List.mem_singleton] at hx
                subst hx
                exact List.mem_cons_self _ _
      · rw [if_neg hacc]
        rw [if_neg (by omega : ¬ k ≤ rescued.length)]
        rw [ih rescued rids hlen hinv]
        rw [List.filter_cons_of_neg hacc]

/-- C6 amended: keyword rescue fills at most 5 slots; candidates not already
in the results are considered in stable descending fused-score order, and
the pass returns exactly the first 5 of the accepted candidates (first
occurrence per chunk id), where a candidate is accepted iff a high-value
pattern occurs verbatim (case-insensitively) in its raw+contextual content,
or else it contains at least `max(2, ⌊|tokens|/2⌋)` query-token occurrences
counted over the extracted token list with its repetitions (not distinct
tokens); the returned chunks carry descending fused scores. -/
theorem C6_keyword_rescue :
    (∀ (query : Str) (chunks : List Chunk) (fused : List (Str × ℚ))
      (already : List Str) (k : Nat), 1 ≤ k →
      keyword_rescue query chunks fused already k =
        keywordRescueSpec query chunks fused already k) ∧
    (∀ (query : Str) (chunks : List Chunk) (fused : List (Str × ℚ))
      (already : List Str),
      (keyword_rescue query chunks fused already 5).length ≤ 5) ∧
    (∀ (query : Str) (chunks : List Chunk) (fused : List (Str × ℚ))
      (already : List Str),
      List.Pairwise (fun a b => fusedGet fused b.id ≤ fusedGet fused a.id)
        (keyword_rescue query chunks fused already 5)) := by
  have hmain : ∀ (query : Str) (chunks : List Chunk) (fused : List (Str × ℚ))
      (already : List Str) (k : Nat), 1 ≤ k →
      keyword_rescue query chunks fused already k =
        keywordRescueSpec query chunks fused already k := by
    intro query chunks fused already k hk
    rw [keyword_rescue, keywordRescueSpec]
    rw [rescueLoop_eq_take (acceptChunk query) k _ [] []
      (by simpa using hk) (by simp)]
    simp only [List.nil_append, List.length_nil, Nat.sub_zero]
    have hfeq : (List.insertionSort (fun a b => fusedGet fused b.id ≤ fusedGet fused a.id)
        (chunks.filter (fun c => !(already.contains c.id)))).filter (acceptChunk query) =
        (List.insertionSort (fun a b => fusedGet fused b.id ≤ fusedGet fused a.id)
        (chunks.filter (fun c => !(already.contains c.id)))).filter (acceptSpec query) :=
      List.filter_congr (fun c _ => acceptChunk_eq_spec query c)
    rw [hfeq]
  refine ⟨hmain, ?_, ?_⟩
  · intro query chunks fused already
    rw [keyword_rescue]
    exact rescueLoop_length (acceptChunk query) 5 _ [] [] (by norm_num)
  · intro query chunks fused already
    rw [hmain query chunks fused already 5 (by norm_num)]
    rw [keywordRescueSpec]
    haveI : IsTotal Chunk (fun a b => fusedGet fused b.id ≤ fusedGet fused a.id) :=
      ⟨fun a b => le_total _ _⟩
    haveI : IsTrans Chunk (fun a b => fusedGet fused b.id ≤ fusedGet fused a.id) :=
      ⟨fun _ _ _ hab hbc => le_trans hbc hab⟩
    have hsorted := List.sorted_insertionSort
      (fun a b => fusedGet fused b.id ≤ fusedGet fused a.id)
      (chunks.filter (fun c => !(already.contains c.id)))
    exact List.Pairwise.sublist
      ((List.take_sublist _ _).trans
        ((dedupById_sublist _ _).trans (List.filter_sublist _))) hsorted

/-- C6 counterexample: the acceptance condition counts token occurrences
with multiplicity, not distinct tokens.  For the query
`ballot ballot ballot box box` (tokens `[ballot, ballot, ballot, box, box]`,
threshold `max(2, 5//2) = 2`) a chunk containing only `ballot` — a single
distinct query token, fewer than the claim's 2 — and no high-value pattern
is still accepted and rescued, because `ballot` is counted three times. -/
theorem C6_counterexample :
    keyword_rescue (lit "ballot ballot ballot box box") [dupTokenChunk] [] [] 5 =
      [dupTokenChunk] ∧
    specificTerms (lit "ballot ballot ballot box box") = [] ∧
    ((dedupFirst (rescueWords (lit "ballot ballot ballot box box"))).filter
      (fun w => containsSub w (lower dupTokenChunk.raw_content ++ ' ' ::
        lower dupTokenChunk.contextual_content))).length = 1 ∧
    (rescueWords (lit "ballot ballot ballot box box")).length = 5 := by
  exact ⟨by decide, by decide, by decide, by decide⟩

/-- C6 witness: the amended equality applied at a concrete query, snapshot
and `k = 5`. -/
theorem C6_witness :
    keyword_rescue (lit "ballot box location") twoChunks [] [] 5 =
      keywordRescueSpec (lit "ballot box location") twoChunks [] [] 5 :=
  C6_keyword_rescue.1 (lit "ballot box location") twoChunks [] [] 5 (by norm_num)

-- ── C5: the page-level rescue pass ───────────────────────────────────────────

theorem pageFillGo_extends (chunks : List Chunk) (fused : List (Str × ℚ))
    (pa : List Nat) :
    ∀ (prs : List PageResult) (results : List SearchResult),
      results <+: pageFillGo chunks fused pa prs results := by
  intro prs
  induction prs with
  | nil =>
    intro results
    rw [pageFillGo]
  | cons pr rest ih =>
    intro results
    rw [pageFillGo]
    by_cases hp : pr.page_num ∈ pa
    · rw [if_pos hp]
      exact ih results
    · rw [if_neg hp]
      cases hmax : maxByFused fused (chunks.filter (fun c =>
          c.page == pr.page_num && c.doc_id == pr.doc_id
            && !((results.map SearchResult.chunk_id).contains c.id))) with
      | none =>
        simp only [hmax]
        exact ih results
      | some best =>
        simp only [hmax]
        exact List.IsPrefix.trans
          (List.prefix_append results [mkResult best (fusedGet fused best.id)])
          (ih (results ++ [mkResult best (fusedGet fused best.id)]))

theorem pageFillGo_mem (chunks : List Chunk) (fused : List (Str × ℚ))
    (pa : List Nat) :
    ∀ (prs : List PageResult) (results : List SearchResult)
      (r : SearchResult), r ∈ pageFillGo chunks fused pa prs results →
      r ∈ results ∨
        ∃ pr ∈ prs, pr.page_num ∉ pa ∧ r.page_number = pr.page_num ∧
          r.document_id = pr.doc_id ∧
          ∃ c ∈ chunks, c.page = pr.page_num ∧ c.doc_id = pr.doc_id ∧
            r = mkResult c (fusedGet fused c.id) := by
  intro prs
  induction prs with
  | nil =>
    intro results r hr
    rw [pageFillGo] at hr
    exact Or.inl hr
  | cons pr rest ih =>
    intro results r hr
    rw [pageFillGo] at hr
    by_cases hp : pr.page_num ∈ pa
    · rw [if_pos hp] at hr
      rcases ih results r hr with h | ⟨pr', hpr', hrest⟩
      · exact Or.inl h
      · exact Or.inr ⟨pr', List.mem_cons_of_mem _ hpr', hrest⟩
    · rw [if_neg hp] at hr
      cases hmax : maxByFused fused (chunks.filter (fun c =>
          c.page == pr.page_num && c.doc_id == pr.doc_id
            && !((results.map SearchResult.chunk_id).contains c.id))) with
      | none =>
        rw [hmax] at hr
        rcases ih results r hr with h | ⟨pr', hpr', hrest⟩
        · exact Or.inl h
        · exact Or.inr ⟨pr', List.mem_cons_of_mem _ hpr', hrest⟩
      | some best =>
        rw [hmax] at hr
        rcases ih _ r hr with h | ⟨pr', hpr', hrest⟩
        · rcases List.mem_append.mp h with h | h
          · exact Or.inl h
          · rw [List.mem_singleton] at h
            subst h
            have hbmem := maxByFused_mem fused _ best hmax
            have hbpred := List.of_mem_filter hbmem
            simp only [Bool.and_eq_true, beq_iff_eq] at hbpred
            refine Or.inr ⟨pr, List.mem_cons_self _ _, hp, ?_, ?_,
              best, List.mem_of_mem_filter hbmem, hbpred.1.1, hbpred.1.2, rfl⟩
            · exact hbpred.1.1
            · exact hbpred.1.2
        · exact Or.inr ⟨pr', List.mem_cons_of_mem _ hpr', hrest⟩

/-- C5 amended: the page-level pass runs iff the rescued result list is
non-empty with its top fused score below 0.6 and the page store is
non-empty; when it runs, `hybrid_search` is exactly `pageFillGo` applied to
the top-3 page-level results (`page_level_search`, which 50/50-fuses
normalised page BM25 and cosine scores, returns at most 3 pages); the pass
only appends — the pre-rescue results are a prefix — and applies NO `top_k`
bound, adding at most one chunk per returned page, each taken from a
returned page whose page NUMBER (compared across documents, against the
page numbers present before any injection) is new. -/
theorem C5_page_rescue :
    (∀ (chunks : List Chunk) (bm25Raw : List (Str × ℚ)) (qsim : Chunk → ℚ)
      (pages : List Page) (pageBm25Raw : List (Str × ℚ)) (psim : Page → ℚ)
      (query : Str) (top_k : Nat), ¬ chunks.isEmpty →
      (¬ (hybridRescued chunks bm25Raw qsim query top_k ≠ [] ∧
          (hybridRescued chunks bm25Raw qsim query top_k).headI.score < mkRat 3 5 ∧
          pages ≠ []) →
        hybrid_search chunks bm25Raw qsim pages pageBm25Raw psim query top_k =
          hybridRescued chunks bm25Raw qsim query top_k) ∧
      ((hybridRescued chunks bm25Raw qsim query top_k ≠ [] ∧
          (hybridRescued chunks bm25Raw qsim query top_k).headI.score < mkRat 3 5 ∧
          pages ≠ []) →
        hybrid_search chunks bm25Raw qsim pages pageBm25Raw psim query top_k =
          pageFillGo chunks (hybridFused chunks bm25Raw qsim query)
            ((hybridRescued chunks bm25Raw qsim query top_k).map SearchResult.page_number)
            (page_level_search pages pageBm25Raw psim 3)
            (hybridRescued chunks bm25Raw qsim query top_k))) ∧
    (∀ (pages : List Page) (pageBm25Raw : List (Str × ℚ)) (psim : Page → ℚ),
      (page_level_search pages pageBm25Raw psim 3).length ≤ 3) ∧
    (∀ (chunks : List Chunk) (fused : List (Str × ℚ)) (pa : List Nat)
      (prs : List PageResult) (results : List SearchResult),
      results <+: pageFillGo chunks fused pa prs results ∧
      (pageFillGo chunks fused pa prs results).length ≤ results.length + prs.length ∧
      (∀ r ∈ pageFillGo chunks fused pa prs results, r ∈ results ∨
        ∃ pr ∈ prs, pr.page_num ∉ pa ∧ r.page_number = pr.page_num ∧
          r.document_id = pr.doc_id ∧
          ∃ c ∈ chunks, c.page = pr.page_num ∧ c.doc_id = pr.doc_id ∧
            r = mkResult c (fusedGet fused c.id))) := by
  refine ⟨?_, ?_, ?_⟩
  · intro chunks bm25Raw qsim pages pageBm25Raw psim query top_k hch
    constructor
    · intro htr
      rw [hybrid_search, if_neg hch, if_neg htr]
    · intro htr
      rw [hybrid_search, if_neg hch, if_pos htr]
  · intro pages pageBm25Raw psim
    exact page_level_search_length pages pageBm25Raw psim 3
  · intro chunks fused pa prs results
    exact ⟨pageFillGo_extends chunks fused pa prs results,
      pageFillGo_length chunks fused pa prs results,
      fun r hr => pageFillGo_mem chunks fused pa prs results r hr⟩

/-- C5 counterexample: the page-level pass is not subject to `top_k`.  With
`top_k = 6`, a seven-chunk snapshot whose fused scores are all 0.5 (< 0.6)
fills 6 results via primary fill and keyword rescue, and the page pass then
injects the chunk of page 7 anyway: 7 results, exceeding `top_k`. -/
theorem C5_counterexample :
    (hybrid_search sevenChunks [] (fun _ => 0) [annexPage] [] (fun _ => 0)
      (lit "ballot box location") 6).length = 7 ∧
    ¬ ((hybrid_search sevenChunks [] (fun _ => 0) [annexPage] [] (fun _ => 0)
      (lit "ballot box location") 6).length ≤ 6) := by
  exact ⟨by decide, by decide⟩

/-- C5 witness: the no-trigger direction applied at a concrete snapshot with
an empty page store. -/
theorem C5_witness :
    hybrid_search twoChunks [] (fun _ => 0) [] [] (fun _ => 0)
      (lit "ballot box location") 1 =
      hybridRescued twoChunks [] (fun _ => 0) (lit "ballot box location") 1 :=
  ((C5_page_rescue.1 twoChunks [] (fun _ => 0) [] [] (fun _ => 0)
    (lit "ballot box location") 1 (by decide)).1
    (fun h => absurd rfl h.2.2))

end CivIQ
